import Mathlib

/-!
Verification of `sage/tensor/modules/tensor_with_indices.py` (class
`TensorWithIndices`): index-notation parsing, group (anti)symmetrization,
self-contraction, and multiplication of annotated tensors.

The tensor collaborator (`symmetrize`, `antisymmetrize`, `trace`, `contract`,
tensor product) is out of scope for the repository core and is modelled as a
free algebra of operation applications, so that "the code invokes operation X
with arguments Y" is captured as equality of free-algebra terms.
-/

set_option maxRecDepth 4000

/-- Modelled from the spec: the tensor collaborator is opaque ("consumed as
opaque capabilities"); we represent a tensor as the free algebra over an
atomic tensor (identified by a label and its type) and the operations the
core may invoke: `symmetrize(axes...)`, `antisymmetrize(axes...)`,
`trace(a, b)`, `contract(pos1..., other, pos2...)` and the tensor product.
Axis arguments are integers, as in Python. -/
inductive Tensor where
  | atom : Nat → Nat → Nat → Tensor
  | symmetrize : Tensor → List Int → Tensor
  | antisymmetrize : Tensor → List Int → Tensor
  | trace : Tensor → Int → Int → Tensor
  | contract : Tensor → List Int → Tensor → List Int → Tensor
  | prod : Tensor → Tensor → Tensor
  deriving DecidableEq, Repr

/-- Modelled from the spec: `_tensor_type` of the opaque tensor collaborator.
An atom carries its type; symmetrization and antisymmetrization preserve the
type; a trace removes one axis of each variance ("trace removes two axes, one
from each side"); the tensor product adds types componentwise; a contraction
over `n` pairs removes `n` contravariant and `n` covariant axes from the
product type (each pair pairs a contravariant axis of one operand with a
covariant axis of the other). -/
def tensor_type : Tensor → Nat × Nat
  | .atom _ p q => (p, q)
  | .symmetrize t _ => tensor_type t
  | .antisymmetrize t _ => tensor_type t
  | .trace t _ _ => ((tensor_type t).1 - 1, (tensor_type t).2 - 1)
  | .contract a ps b _ =>
      ((tensor_type a).1 + (tensor_type b).1 - ps.length,
       (tensor_type a).2 + (tensor_type b).2 - ps.length)
  | .prod a b =>
      ((tensor_type a).1 + (tensor_type b).1, (tensor_type a).2 + (tensor_type b).2)

/-- Errors raised by `TensorWithIndices`: Python `ValueError` (format /
convention violations) and `IndexError` (rank mismatch in `__init__`,
index collision in `__mul__`), each carrying the message string. -/
inductive TWIError where
  | valueError : String → TWIError
  | indexError : String → TWIError
  deriving DecidableEq, Repr

/-- The state of a constructed `TensorWithIndices`: fields `_tensor`,
`_changed`, `_con`, `_cov` (index strings as character lists). -/
structure TWIState where
  tensor : Tensor
  changed : Bool
  con : List Char
  cov : List Char
  deriving DecidableEq, Repr

instance {ε α : Type} [DecidableEq ε] [DecidableEq α] : DecidableEq (Except ε α) := by
  intro a b
  cases a <;> cases b
  case error.error e1 e2 =>
    exact match decEq e1 e2 with
      | .isTrue h => .isTrue (by rw [h])
      | .isFalse h => .isFalse (by intro hc; cases hc; exact h rfl)
  case ok.ok a1 a2 =>
    exact match decEq a1 a2 with
      | .isTrue h => .isTrue (by rw [h])
      | .isFalse h => .isFalse (by intro hc; cases hc; exact h rfl)
  case error.ok e1 a2 => exact .isFalse (by intro hc; cases hc)
  case ok.error a1 e2 => exact .isFalse (by intro hc; cases hc)

/-- The character class `[a-zA-Z.]` of the source's regular expressions. -/
def isIdxChar (c : Char) : Bool :=
  (('a' ≤ c && c ≤ 'z') || ('A' ≤ c && c ≤ 'Z')) || c = '.'

/-- `indices.replace('{','').replace('}','')`: strip LaTeX braces. -/
def stripBraces (s : List Char) : List Char :=
  s.filter (fun c => c ≠ '{' && c ≠ '}')

/-- `x.replace(c, '')` for a single character `c` (removes all occurrences). -/
def pyReplace (c : Char) (s : List Char) : List Char :=
  s.filter (fun d => d ≠ c)

/-- Python `str.split(sep)` for a single-character separator. -/
def pySplit (sep : Char) : List Char → List (List Char)
  | [] => [[]]
  | c :: rest =>
    match pySplit sep rest with
    | [] => [[]]
    | grp :: rs => if c = sep then [] :: grp :: rs else (c :: grp) :: rs

/-- Matcher state for the source's `allowed_pattern` regular expression
`(\([a-zA-Z.]{2,}\)|\[[a-zA-Z.]{2,}\]|[a-zA-Z.]+)*`: either at top level, or
inside a group opened by `(` or `[` (recording the required closing
delimiter and the number of body characters consumed so far). -/
inductive PMode where
  | top : PMode
  | group : Char → Nat → PMode

/-- Deterministic recognizer for `allowed_pattern` (anchored, full match).
The regex is deterministic because the group delimiters do not belong to the
body character class `[a-zA-Z.]`. -/
def matchPAux : PMode → List Char → Bool
  | .top, [] => true
  | .top, c :: rest =>
    if c = '(' then matchPAux (.group ')' 0) rest
    else if c = '[' then matchPAux (.group ']' 0) rest
    else if isIdxChar c then matchPAux .top rest
    else false
  | .group _ _, [] => false
  | .group cl n, c :: rest =>
    if c = cl then decide (2 ≤ n) && matchPAux .top rest
    else if isIdxChar c then matchPAux (.group cl (n + 1)) rest
    else false

/-- `re.match(allowed_pattern + "$", s)` as a Boolean. -/
def matchP (s : List Char) : Bool := matchPAux .top s

/-- The body of the source's `con_then_cov` regex
`^(\^|)ALLOWED(\_ALLOWED|)$` matched against the whole input: an optional
leading `^`, an allowed pattern, optionally `_` followed by an allowed
pattern.  Since `^` and `_` cannot occur inside an allowed pattern, the
regex body is equivalent to stripping one leading `^` and splitting at
`_`. -/
def con_then_cov_core (s : List Char) : Bool :=
  let s1 := if s.head? = some '^' then s.tail else s
  match pySplit '_' s1 with
  | [a] => matchP a
  | [a, b] => matchP a && matchP b
  | _ => false

/-- The body of the source's `cov_then_con` regex `^\_ALLOWED(\^ALLOWED|)$`
matched against the whole input. -/
def cov_then_con_core (s : List Char) : Bool :=
  if s.head? = some '_' then
    (match pySplit '^' s.tail with
     | [a] => matchP a
     | [a, b] => matchP a && matchP b
     | _ => false)
  else false

/-- `re.match(con_then_cov, s) is not None`.  Python's `$` anchor (without
`re.MULTILINE`) matches at the absolute end of the string and also just
before a single trailing newline, so the regex accepts `s` when its body
matches the whole string or the whole string minus one final `\n`. -/
def con_then_cov_match (s : List Char) : Bool :=
  con_then_cov_core s ||
    (decide (s.getLast? = some '\n') && con_then_cov_core s.dropLast)

/-- `re.match(cov_then_con, s) is not None`, with the same `$` trailing
newline semantics. -/
def cov_then_con_match (s : List Char) : Bool :=
  cov_then_con_core s ||
    (decide (s.getLast? = some '\n') && cov_then_con_core s.dropLast)

/-- Lines 249-262 of the source: reject the string when neither top-level
regex matches, otherwise split into the raw contravariant and covariant
substrings.  The `try/except ValueError` around the tuple unpacking of
`split` is rendered by the catch-all cases. -/
def splitParts (indices : List Char) : Except TWIError (List Char × List Char) :=
  if con_then_cov_match indices then
    let r := pyReplace '^' indices
    match pySplit '_' r with
    | [a, b] => .ok (a, b)
    | _ => .ok (r, [])
  else if cov_then_con_match indices then
    let r := indices.tail
    match pySplit '^' r with
    | [a, b] => .ok (b, a)
    | _ => .ok ([], r)
  else .error (.valueError "Index conventions not satisfied")

/-- `x.replace("(","").replace(")","").replace("[","").replace("]","")`. -/
def stripGroupPunct (s : List Char) : List Char :=
  s.filter (fun c => ((c ≠ '(' && c ≠ ')') && c ≠ '[') && c ≠ ']')

/-- `len(x) != len(set(x)) + max(x.count(".") - 1, 0)`: the duplicate-index
test of lines 266-269 (natural subtraction realizes the `max` with 0). -/
def dupFails (s : List Char) : Bool :=
  s.length ≠ s.dedup.length + (s.count '.' - 1)

/-- Body scan for `first_sym_regex = (\(|\[)[a-zA-Z.]*[)\]]`: after an
opening delimiter, consume `[a-zA-Z.]*` greedily and require a closing
delimiter (either `)` or `]`, as in the source regex); returns its
position. -/
def scanBody : List Char → Nat → Option Nat
  | [], _ => none
  | c :: rest, i =>
    if c = ')' || c = ']' then some i
    else if isIdxChar c then scanBody rest (i + 1)
    else none

/-- `re.search(first_sym_regex, s)`: the match with the leftmost starting
position; returns the span endpoints `(sym1, sym2)` (opening and closing
delimiter positions) and the captured opening delimiter
(`first_sym.groups()[0]`). -/
def findGroup : List Char → Nat → Option (Nat × Nat × Char)
  | [], _ => none
  | c :: rest, i =>
    if c = '(' || c = '[' then
      match scanBody rest (i + 1) with
      | some j => some (i, j, c)
      | none => findGroup rest (i + 1)
    else findGroup rest (i + 1)

/-- Python `range(a, b)` over integers. -/
def pyRange (a b : Int) : List Int :=
  (List.range (b - a).toNat).map (fun k => a + (k : Int))

/-- Python slice `s[a:b]` for `0 ≤ a ≤ b` within range. -/
def pySlice (s : List Char) (a b : Nat) : List Char :=
  (s.drop a).take (b - a)

/-- `con[:sym1] + con[sym1+1:sym2] + con[sym2+1:]`: delete the two group
delimiters, keeping the letters. -/
def removeDelims (s : List Char) (sym1 sym2 : Nat) : List Char :=
  s.take sym1 ++ pySlice s (sym1 + 1) sym2 ++ s.drop (sym2 + 1)

/-- Lines 279-297: the `while re.search(first_sym_regex, con)` loop applying
(anti)symmetrizations on contravariant indices.  `fuel` bounds the number of
iterations; the caller passes the string length, which suffices because every
iteration removes the two delimiter characters. -/
def applyGroupsCon : Nat → Tensor → Bool → List Char → Tensor × Bool × List Char
  | 0, t, ch, s => (t, ch, s)
  | fuel + 1, t, ch, s =>
    match findGroup s 0 with
    | none => (t, ch, s)
    | some (sym1, sym2, op) =>
      let axes := pyRange (sym1 : Int) ((sym2 : Int) - 1)
      let t' := if op = '(' then Tensor.symmetrize t axes else Tensor.antisymmetrize t axes
      applyGroupsCon fuel t' true (removeDelims s sym1 sym2)

/-- Lines 299-316: the analogous loop on covariant indices; axis positions
are offset by the current tensor's contravariant rank
`self._tensor._tensor_type[0]`. -/
def applyGroupsCov : Nat → Tensor → Bool → List Char → Tensor × Bool × List Char
  | 0, t, ch, s => (t, ch, s)
  | fuel + 1, t, ch, s =>
    match findGroup s 0 with
    | none => (t, ch, s)
    | some (sym1, sym2, op) =>
      let p : Int := ((tensor_type t).1 : Int)
      let axes := pyRange (p + (sym1 : Int)) (p + (sym2 : Int) - 1)
      let t' := if op = '(' then Tensor.symmetrize t axes else Tensor.antisymmetrize t axes
      applyGroupsCov fuel t' true (removeDelims s sym1 sym2)

/-- Python `str.index(c)`: position of the first occurrence (only used on
characters known to occur, where it agrees with the source). -/
def pyIndex (s : List Char) (c : Char) : Nat :=
  match s with
  | [] => 0
  | d :: rest => if d = c then 0 else pyIndex rest c + 1

/-- Python `s[i]` for an integer index (negative indices wrap, as in Python;
out-of-range access is a Python error and is unreachable in the reachable
states of the construction, so a junk character is returned). -/
def pyCharAt (s : List Char) (i : Int) : Char :=
  let j := if i < 0 then (s.length : Int) + i else i
  s.getD j.toNat ' '

/-- Lines 320-325: collect `contraction_pair_list`, one pair
`[con.index(ind), p + cov.index(ind)]` for each character `ind` of the
(already group-free) contravariant string that is not the wildcard and also
occurs in the covariant string.  `rem` walks over `con`. -/
def contractionPairList (rem fullCon cov : List Char) (p : Int) : List (Int × Int) :=
  match rem with
  | [] => []
  | c :: rest =>
    if c ≠ '.' ∧ c ∈ cov then
      ((pyIndex fullCon c : Int), p + (pyIndex cov c : Int)) :: contractionPairList rest fullCon cov p
    else contractionPairList rest fullCon cov p

/-- Lines 326-339: the `while contraction_pair_list` loop.  Python pops the
last pair each iteration; this function therefore receives the pair list
reversed and processes it front to back, which is the identical order.
After each `trace`, the still-pending pairs are renumbered exactly as in the
source, and the contracted letter is removed from both index strings with
`str.replace(ind, '')`.  `fuel` bounds the iteration count; the caller
passes the pair-list length, which is exact since each iteration pops one
pair and the renumbering preserves the list length. -/
def applyTracesRev : Nat → Tensor → Bool → List Char → List Char → List (Int × Int) →
    Tensor × Bool × List Char × List Char
  | 0, t, ch, con, cov, _ => (t, ch, con, cov)
  | fuel + 1, t, ch, con, cov, pairs =>
    match pairs with
    | [] => (t, ch, con, cov)
    | (pos1, pos2) :: rest =>
      let t' := Tensor.trace t pos1 pos2
      let rest' := rest.map (fun q =>
        ((if q.1 > pos1 then q.1 - 1 else q.1),
         (if q.2 > pos2 then q.2 - 1 else q.2) - 1))
      let ind := pyCharAt con pos1
      applyTracesRev fuel t' true (con.filter (fun d => d ≠ ind))
        (cov.filter (fun d => d ≠ ind)) rest'

/-- The operation phase of `__init__` (lines 279-339) on the already split
and validated raw parts: group rewriting on both variance parts followed by
self-contraction rewriting, producing the final state
`(_tensor, _changed, _con, _cov)`. -/
def constructOps (tensor : Tensor) (con cov : List Char) : TWIState :=
  let r1 := applyGroupsCon con.length tensor false con
  let r2 := applyGroupsCov cov.length r1.1 r1.2.1 cov
  let con1 := r1.2.2
  let cov1 := r2.2.2
  let pairs := contractionPairList con1 con1 cov1 ((tensor_type r2.1).1 : Int)
  let r3 := applyTracesRev pairs.length r2.1 r2.2.1 con1 cov1 pairs.reverse
  ⟨r3.1, r3.2.1, r3.2.2.1, r3.2.2.2⟩

/-- `TensorWithIndices.__init__(tensor, indices)` (lines 205-339): brace
stripping, convention checks, rank checks, group rewriting on both variance
parts, then self-contraction rewriting.  Returns the final state or the
raised error. -/
def construct (tensor : Tensor) (indices : String) : Except TWIError TWIState :=
  match splitParts (stripBraces indices.data) with
  | .error e => .error e
  | .ok (con, cov) =>
    let con_without_sym := stripGroupPunct con
    let cov_without_sym := stripGroupPunct cov
    if dupFails con_without_sym then
      .error (.valueError "Index conventions not satisfied : repeated indices of same type")
    else if dupFails cov_without_sym then
      .error (.valueError "Index conventions not satisfied : repeated indices of same type")
    else if con_without_sym.length ≠ (tensor_type tensor).1 then
      .error (.indexError "number of contravariant indices not compatible with the tensor type")
    else if cov_without_sym.length ≠ (tensor_type tensor).2 then
      .error (.indexError "number of covavariant indices not compatible with the tensor type")
    else .ok (constructOps tensor con cov)

/-- `TensorWithIndices.update` (lines 373-400): the wrapped tensor when
`_changed`, otherwise the object itself. -/
def TWIState.update (s : TWIState) : Sum Tensor TWIState :=
  if s.changed then .inl s.tensor else .inr s

/-- First loop of `__mul__` (lines 482-490): walk `self._con`; each
non-wildcard character found in `other._cov` contributes the pair
`(self._con.index(ind), other_p + other._cov.index(ind))`; a character found
in `other._con` raises the contravariant collision `IndexError` (the raise
aborts the whole call, so pairs already collected are discarded). -/
def mulLoop1 (rem selfCon otherCon otherCov : List Char) (otherP : Int) :
    Except TWIError (List (Int × Int)) :=
  match rem with
  | [] => .ok []
  | c :: rest =>
    if c ≠ '.' then
      if c ∈ otherCon then
        .error (.indexError ("the index " ++ String.singleton c ++
          " appears twice in a contravariant position"))
      else if c ∈ otherCov then
        match mulLoop1 rest selfCon otherCon otherCov otherP with
        | .error e => .error e
        | .ok ps => .ok (((pyIndex selfCon c : Int), otherP + (pyIndex otherCov c : Int)) :: ps)
      else mulLoop1 rest selfCon otherCon otherCov otherP
    else mulLoop1 rest selfCon otherCon otherCov otherP

/-- Second loop of `__mul__` (lines 491-499): walk `self._cov`; each
non-wildcard character found in `other._con` contributes the pair
`(self_p + self._cov.index(ind), other._con.index(ind))`; a character found
in `other._cov` raises the covariant collision `IndexError`. -/
def mulLoop2 (rem selfCov otherCon otherCov : List Char) (selfP : Int) :
    Except TWIError (List (Int × Int)) :=
  match rem with
  | [] => .ok []
  | c :: rest =>
    if c ≠ '.' then
      if c ∈ otherCov then
        .error (.indexError ("the index " ++ String.singleton c ++
          " appears twice in a covariant position"))
      else if c ∈ otherCon then
        match mulLoop2 rest selfCov otherCon otherCov selfP with
        | .error e => .error e
        | .ok ps => .ok ((selfP + (pyIndex selfCov c : Int), (pyIndex otherCon c : Int)) :: ps)
      else mulLoop2 rest selfCov otherCon otherCov selfP
    else mulLoop2 rest selfCov otherCon otherCov selfP

/-- `TensorWithIndices.__mul__` (lines 445-507): tensor product when no
contraction pair was found, otherwise one combined `contract` call over all
pairs. -/
def mul (s1 s2 : TWIState) : Except TWIError Tensor :=
  match mulLoop1 s1.con s1.con s2.con s2.cov ((tensor_type s2.tensor).1 : Int) with
  | .error e => .error e
  | .ok ps1 =>
    match mulLoop2 s1.cov s1.cov s2.con s2.cov ((tensor_type s1.tensor).1 : Int) with
    | .error e => .error e
    | .ok ps2 =>
      let pairs := ps1 ++ ps2
      if pairs = [] then .ok (.prod s1.tensor s2.tensor)
      else .ok (.contract s1.tensor (pairs.map Prod.fst) s2.tensor (pairs.map Prod.snd))

/-! ### Specification-side predicates -/

/-- Spec-side: a non-wildcard letter occurs at least twice in the part. -/
def hasNonWildcardDup (s : List Char) : Prop :=
  ∃ c ∈ s, c ≠ '.' ∧ 2 ≤ s.count c

instance (s : List Char) : Decidable (hasNonWildcardDup s) := by
  unfold hasNonWildcardDup; infer_instance

/-- Spec-side: no non-wildcard letter occurs more than once in the part. -/
def nodupNW (s : List Char) : Prop :=
  ∀ c : Char, c ≠ '.' → s.count c ≤ 1

/-- The result is a Python `ValueError` (grammar / format error). -/
def formatErr (x : Except TWIError TWIState) : Bool :=
  match x with
  | .error (.valueError _) => true
  | _ => false

/-- The result is a Python `IndexError` (rank-mismatch error). -/
def rankErr (x : Except TWIError TWIState) : Bool :=
  match x with
  | .error (.indexError _) => true
  | _ => false

/-- The multiplication result is a Python `IndexError` (index collision). -/
def isCollisionErr (x : Except TWIError Tensor) : Bool :=
  match x with
  | .error (.indexError _) => true
  | _ => false

/-- Spec-side for C3: the contraction pairs of a multiplication, all computed
up front against each operand's original axis numbering, with each tensor's
own contravariant rank as its covariant-axis offset: first the letters shared
between the first operand's contravariant part and the second's covariant
part, then the letters shared between the first's covariant part and the
second's contravariant part. -/
def sharedPairs (s1 s2 : TWIState) : List (Int × Int) :=
  ((s1.con.filter (fun c => decide (c ≠ '.' ∧ c ∈ s2.cov))).map
    (fun c => ((pyIndex s1.con c : Int),
               ((tensor_type s2.tensor).1 : Int) + (pyIndex s2.cov c : Int))))
  ++ ((s1.cov.filter (fun c => decide (c ≠ '.' ∧ c ∈ s2.con))).map
    (fun c => (((tensor_type s1.tensor).1 : Int) + (pyIndex s1.cov c : Int),
               (pyIndex s2.con c : Int))))

/-- A variance-part string as the top-level regexes accept it: it matches
the allowed pattern fully, or — the `$` trailing-newline sliver — it ends in
a single final newline and the rest matches the allowed pattern. -/
def matchPN (s : List Char) : Bool :=
  matchP s || (decide (s.getLast? = some '\n') && matchP s.dropLast)

/-- Spec-side for C1 (modelled from the claim's words): scan a variance
part left to right and list its groups; for each group record the opening
delimiter, the zero-based axis position of its first letter (counting index
symbols only, not group punctuation), and the number of letters it
encloses.  The accumulator holds the group currently open, if any. -/
def specGroupsAux : Option (Char × Nat × Nat) → List Char → Nat →
    List (Char × Nat × Nat)
  | _, [], _ => []
  | none, c :: rest, p =>
    if c = '(' || c = '[' then specGroupsAux (some (c, p, 0)) rest p
    else specGroupsAux none rest (p + 1)
  | some (op, st, n), c :: rest, p =>
    if isIdxChar c then specGroupsAux (some (op, st, n + 1)) rest (p + 1)
    else (op, st, n) :: specGroupsAux none rest p

/-- Spec-side for C1: the groups of a variance part, leftmost first. -/
def specGroups (s : List Char) : List (Char × Nat × Nat) :=
  specGroupsAux none s 0

/-- Spec-side for C1 (modelled from the claim's words): apply the listed
groups to the tensor left to right — `symmetrize` for `(`, `antisymmetrize`
for `[` — each over exactly the contiguous zero-based axis range its
letters occupy. -/
def applyGroupListCon (t : Tensor) (gs : List (Char × Nat × Nat)) : Tensor :=
  gs.foldl (fun acc g =>
    if g.1 = '(' then
      Tensor.symmetrize acc (pyRange (g.2.1 : Int) ((g.2.1 : Int) + (g.2.2 : Int)))
    else
      Tensor.antisymmetrize acc (pyRange (g.2.1 : Int) ((g.2.1 : Int) + (g.2.2 : Int)))) t

/-- Spec-side for C1: the covariant version of `applyGroupListCon`, every
axis position offset by the current tensor's contravariant rank taken at
application time. -/
def applyGroupListCov (t : Tensor) (gs : List (Char × Nat × Nat)) : Tensor :=
  gs.foldl (fun acc g =>
    if g.1 = '(' then
      Tensor.symmetrize acc (pyRange (((tensor_type acc).1 : Int) + (g.2.1 : Int))
        (((tensor_type acc).1 : Int) + (g.2.1 : Int) + (g.2.2 : Int)))
    else
      Tensor.antisymmetrize acc (pyRange (((tensor_type acc).1 : Int) + (g.2.1 : Int))
        (((tensor_type acc).1 : Int) + (g.2.1 : Int) + (g.2.2 : Int)))) t

/-- Spec-side for C2 (modelled from the claim's words): the non-wildcard
letters occurring in both variance parts, in the order they are identified
(scanning the contravariant part). -/
def sharedLetters (con cov : List Char) : List Char :=
  con.filter (fun c => c ≠ '.' && decide (c ∈ cov))

/-- Spec-side for C2: one axis pair per shared letter, in identification
order — the position of the letter in the contravariant string, and `p`
(the contravariant rank) plus its position in the covariant string. -/
def selfPairs (con cov : List Char) (p : Int) : List (Int × Int) :=
  (sharedLetters con cov).map
    (fun c => ((pyIndex con c : Int), p + (pyIndex cov c : Int)))

/-- Spec-side for C2 (modelled from the claim's words): trace the pending
axis pairs front to back (the caller passes them most-recently-identified
first); after each trace, renumber the remaining pairs — a first component
greater than the removed contravariant position decrements by one; a second
component greater than the removed covariant position decrements by one,
and every second component decrements once more unconditionally.  `fuel`
bounds the iteration count. -/
def specTraceLoop : Nat → List (Int × Int) → Tensor → Tensor
  | 0, _, t => t
  | _ + 1, [], t => t
  | fuel + 1, q :: rest, t =>
    specTraceLoop fuel (rest.map (fun r =>
      ((if r.1 > q.1 then r.1 - 1 else r.1),
       (if r.2 > q.2 then r.2 - 1 else r.2) - 1))) (Tensor.trace t q.1 q.2)

/-! ### Helper lemmas -/

theorem construct_eq_ops (t : Tensor) (s : String) (con cov : List Char)
    (hsp : splitParts (stripBraces s.data) = .ok (con, cov))
    (hd1 : dupFails (stripGroupPunct con) = false)
    (hd2 : dupFails (stripGroupPunct cov) = false)
    (hr1 : (stripGroupPunct con).length = (tensor_type t).1)
    (hr2 : (stripGroupPunct cov).length = (tensor_type t).2) :
    construct t s = .ok (constructOps t con cov) := by
  unfold construct
  rw [hsp]
  simp [hd1, hd2, hr1, hr2]


/-! ### C7: notation equivalences -/

/-- C7: `"ab_c"`, `"^ab_c"` and `"^{ab}_{c}"` produce identical construction
results for every tensor (identical reduced parts and identical wrapped
tensors): the leading `^` is optional and curly braces are stripped before
any other processing. -/
theorem C7_equivalent_notations (t : Tensor) :
    construct t "ab_c" = construct t "^ab_c" ∧
    construct t "^ab_c" = construct t "^{ab}_{c}" := ⟨rfl, rfl⟩

/-! ### C8: update -/

/-- C8: `update` returns the wrapped tensor when the `_changed` flag is true
and the expression itself otherwise. -/
theorem C8_update (s : TWIState) :
    (s.changed = true → s.update = Sum.inl s.tensor) ∧
    (s.changed = false → s.update = Sum.inr s) := by
  constructor <;> intro h <;> simp [TWIState.update, h]

/-- Witness for C8 at concrete states. -/
theorem C8_update_witness :
    (TWIState.mk (.atom 0 0 0) true [] []).update = Sum.inl (.atom 0 0 0) ∧
    (TWIState.mk (.atom 0 0 0) false [] []).update =
      Sum.inr (TWIState.mk (.atom 0 0 0) false [] []) :=
  ⟨(C8_update _).1 rfl, (C8_update _).2 rfl⟩

/-! ### C3 / C4: multiplication -/

theorem mulLoop1_ok (selfCon otherCon otherCov : List Char) (otherP : Int) :
    ∀ rem, (∀ c ∈ rem, c = '.' ∨ c ∉ otherCon) →
    mulLoop1 rem selfCon otherCon otherCov otherP =
      .ok ((rem.filter (fun c => decide (c ≠ '.' ∧ c ∈ otherCov))).map
        (fun c => ((pyIndex selfCon c : Int), otherP + (pyIndex otherCov c : Int)))) := by
  intro rem
  induction rem with
  | nil => intro _; rfl
  | cons c rest ih =>
    intro h
    have hc := h c (List.mem_cons_self c rest)
    have hrest := ih (fun d hd => h d (List.mem_cons_of_mem c hd))
    by_cases hdot : c = '.'
    · subst hdot
      simpa [mulLoop1] using hrest
    · have hnotcon : c ∉ otherCon := by
        rcases hc with h1 | h1
        · exact absurd h1 hdot
        · exact h1
      by_cases hcov : c ∈ otherCov
      · simp [mulLoop1, hdot, hnotcon, hcov, hrest]
      · simp [mulLoop1, hdot, hnotcon, hcov, hrest]

theorem mulLoop2_ok (selfCov otherCon otherCov : List Char) (selfP : Int) :
    ∀ rem, (∀ c ∈ rem, c = '.' ∨ c ∉ otherCov) →
    mulLoop2 rem selfCov otherCon otherCov selfP =
      .ok ((rem.filter (fun c => decide (c ≠ '.' ∧ c ∈ otherCon))).map
        (fun c => (selfP + (pyIndex selfCov c : Int), (pyIndex otherCon c : Int)))) := by
  intro rem
  induction rem with
  | nil => intro _; rfl
  | cons c rest ih =>
    intro h
    have hc := h c (List.mem_cons_self c rest)
    have hrest := ih (fun d hd => h d (List.mem_cons_of_mem c hd))
    by_cases hdot : c = '.'
    · subst hdot
      simpa [mulLoop2] using hrest
    · have hnotcov : c ∉ otherCov := by
        rcases hc with h1 | h1
        · exact absurd h1 hdot
        · exact h1
      by_cases hcon : c ∈ otherCon
      · simp [mulLoop2, hdot, hnotcov, hcon, hrest]
      · simp [mulLoop2, hdot, hnotcov, hcon, hrest]

/-- C3: multiplication of two index expressions is the plain tensor product
when no non-wildcard letter of the first's contravariant part occurs in the
second's covariant part or conversely; otherwise it is one combined
`contract` call over all shared-letter axis pairs, every position computed up
front against each operand's original axis numbering with each tensor's own
contravariant rank as its covariant-axis offset (`sharedPairs`). -/
theorem C3_multiplication (s1 s2 : TWIState)
    (h1 : ∀ c ∈ s1.con, c = '.' ∨ c ∉ s2.con)
    (h2 : ∀ c ∈ s1.cov, c = '.' ∨ c ∉ s2.cov) :
    mul s1 s2 = .ok
      (if sharedPairs s1 s2 = [] then Tensor.prod s1.tensor s2.tensor
       else Tensor.contract s1.tensor ((sharedPairs s1 s2).map Prod.fst) s2.tensor
         ((sharedPairs s1 s2).map Prod.snd)) := by
  have hsh : sharedPairs s1 s2 =
      ((s1.con.filter (fun c => decide (c ≠ '.' ∧ c ∈ s2.cov))).map
        (fun c => ((pyIndex s1.con c : Int),
          ((tensor_type s2.tensor).1 : Int) + (pyIndex s2.cov c : Int))))
      ++ ((s1.cov.filter (fun c => decide (c ≠ '.' ∧ c ∈ s2.con))).map
        (fun c => (((tensor_type s1.tensor).1 : Int) + (pyIndex s1.cov c : Int),
          (pyIndex s2.con c : Int)))) := rfl
  unfold mul
  rw [mulLoop1_ok s1.con s2.con s2.cov ((tensor_type s2.tensor).1 : Int) s1.con h1,
    mulLoop2_ok s1.cov s2.con s2.cov ((tensor_type s1.tensor).1 : Int) s1.cov h2]
  dsimp only
  rw [← hsh]
  split <;> rfl

/-- Witness for C3: no shared letter gives the tensor product; one shared
letter gives a single-axis contraction; two shared letters give one two-axis
contraction (matching the docstring examples `a.contract(1, b, 0)` and
`a.contract(0, 1, b, 0, 1)`). -/
theorem C3_multiplication_witness :
    mul ⟨.atom 0 2 0, false, ['i', 'j'], []⟩ ⟨.atom 1 0 1, false, [], ['k']⟩ =
      .ok (.prod (.atom 0 2 0) (.atom 1 0 1)) ∧
    mul ⟨.atom 0 2 0, false, ['i', 'k'], []⟩ ⟨.atom 1 0 2, false, [], ['k', 'j']⟩ =
      .ok (.contract (.atom 0 2 0) [1] (.atom 1 0 2) [0]) ∧
    mul ⟨.atom 0 2 0, false, ['k', 'l'], []⟩ ⟨.atom 1 0 2, false, [], ['k', 'l']⟩ =
      .ok (.contract (.atom 0 2 0) [0, 1] (.atom 1 0 2) [0, 1]) :=
  ⟨(C3_multiplication ⟨.atom 0 2 0, false, ['i', 'j'], []⟩ ⟨.atom 1 0 1, false, [], ['k']⟩
      (by decide) (by decide)).trans (by decide),
   (C3_multiplication ⟨.atom 0 2 0, false, ['i', 'k'], []⟩ ⟨.atom 1 0 2, false, [], ['k', 'j']⟩
      (by decide) (by decide)).trans (by decide),
   (C3_multiplication ⟨.atom 0 2 0, false, ['k', 'l'], []⟩ ⟨.atom 1 0 2, false, [], ['k', 'l']⟩
      (by decide) (by decide)).trans (by decide)⟩

theorem mulLoop1_collision (selfCon otherCon otherCov : List Char) (otherP : Int) :
    ∀ rem, (∃ c ∈ rem, c ≠ '.' ∧ c ∈ otherCon) →
    ∃ m, mulLoop1 rem selfCon otherCon otherCov otherP = .error (.indexError m) := by
  intro rem
  induction rem with
  | nil =>
    rintro ⟨c, hc, _⟩
    exact absurd hc (List.not_mem_nil c)
  | cons c rest ih =>
    rintro ⟨d, hd, h1, h2⟩
    rcases List.mem_cons.mp hd with rfl | hd'
    · refine ⟨"the index " ++ String.singleton d ++ " appears twice in a contravariant position", ?_⟩
      simp [mulLoop1, h1, h2]
    · obtain ⟨m, hm⟩ := ih ⟨d, hd', h1, h2⟩
      by_cases hdot : c = '.'
      · subst hdot
        exact ⟨m, by simpa [mulLoop1] using hm⟩
      · by_cases hcon : c ∈ otherCon
        · refine ⟨"the index " ++ String.singleton c ++ " appears twice in a contravariant position", ?_⟩
          simp [mulLoop1, hdot, hcon]
        · by_cases hcov : c ∈ otherCov
          · refine ⟨m, ?_⟩
            simp only [mulLoop1, hdot, hcon, hcov, ne_eq, not_false_eq_true, if_true, if_false,
              ite_true, ite_false]
            rw [hm]
          · exact ⟨m, by simpa [mulLoop1, hdot, hcon, hcov] using hm⟩

theorem mulLoop2_collision (selfCov otherCon otherCov : List Char) (selfP : Int) :
    ∀ rem, (∃ c ∈ rem, c ≠ '.' ∧ c ∈ otherCov) →
    ∃ m, mulLoop2 rem selfCov otherCon otherCov selfP = .error (.indexError m) := by
  intro rem
  induction rem with
  | nil =>
    rintro ⟨c, hc, _⟩
    exact absurd hc (List.not_mem_nil c)
  | cons c rest ih =>
    rintro ⟨d, hd, h1, h2⟩
    rcases List.mem_cons.mp hd with rfl | hd'
    · refine ⟨"the index " ++ String.singleton d ++ " appears twice in a covariant position", ?_⟩
      simp [mulLoop2, h1, h2]
    · obtain ⟨m, hm⟩ := ih ⟨d, hd', h1, h2⟩
      by_cases hdot : c = '.'
      · subst hdot
        exact ⟨m, by simpa [mulLoop2] using hm⟩
      · by_cases hcov : c ∈ otherCov
        · refine ⟨"the index " ++ String.singleton c ++ " appears twice in a covariant position", ?_⟩
          simp [mulLoop2, hdot, hcov]
        · by_cases hcon : c ∈ otherCon
          · refine ⟨m, ?_⟩
            simp only [mulLoop2, hdot, hcon, hcov, ne_eq, not_false_eq_true, if_true, if_false,
              ite_true, ite_false]
            rw [hm]
          · exact ⟨m, by simpa [mulLoop2, hdot, hcon, hcov] using hm⟩

theorem mulLoop1_error_kind (selfCon otherCon otherCov : List Char) (otherP : Int) :
    ∀ rem e, mulLoop1 rem selfCon otherCon otherCov otherP = .error e →
      ∃ m, e = TWIError.indexError m := by
  intro rem
  induction rem with
  | nil =>
    intro e he
    cases he
  | cons c rest ih =>
    intro e he
    simp only [mulLoop1] at he
    by_cases hdot : c = '.'
    · rw [if_neg (not_not_intro hdot)] at he
      exact ih e he
    · rw [if_pos hdot] at he
      by_cases hcon : c ∈ otherCon
      · rw [if_pos hcon] at he
        exact ⟨_, (Except.error.inj he).symm⟩
      · rw [if_neg hcon] at he
        by_cases hcov : c ∈ otherCov
        · rw [if_pos hcov] at he
          cases hrec : mulLoop1 rest selfCon otherCon otherCov otherP with
          | error e2 =>
            rw [hrec] at he
            obtain ⟨m, hm⟩ := ih e2 hrec
            exact ⟨m, ((Except.error.inj he).symm).trans hm⟩
          | ok ps =>
            rw [hrec] at he
            cases he
        · rw [if_neg hcov] at he
          exact ih e he

/-- C4: multiplication raises an index-collision `IndexError` exactly when a
non-wildcard letter appears in the contravariant part of both operands or in
the covariant part of both operands; wildcard sharing never triggers it. -/
theorem C4_collision_error (s1 s2 : TWIState) :
    isCollisionErr (mul s1 s2) = true ↔
      ((∃ c ∈ s1.con, c ≠ '.' ∧ c ∈ s2.con) ∨ (∃ c ∈ s1.cov, c ≠ '.' ∧ c ∈ s2.cov)) := by
  constructor
  · intro h
    by_contra hno
    push_neg at hno
    obtain ⟨hno1, hno2⟩ := hno
    have h1 : ∀ c ∈ s1.con, c = '.' ∨ c ∉ s2.con := by
      intro c hc
      by_cases hdot : c = '.'
      · exact Or.inl hdot
      · exact Or.inr (hno1 c hc hdot)
    have h2 : ∀ c ∈ s1.cov, c = '.' ∨ c ∉ s2.cov := by
      intro c hc
      by_cases hdot : c = '.'
      · exact Or.inl hdot
      · exact Or.inr (hno2 c hc hdot)
    have hm := C3_multiplication s1 s2 h1 h2
    rw [hm] at h
    simp [isCollisionErr] at h
  · rintro (hcol | hcol)
    · obtain ⟨m, hm⟩ := mulLoop1_collision s1.con s2.con s2.cov
        ((tensor_type s2.tensor).1 : Int) s1.con hcol
      unfold mul
      rw [hm]
      rfl
    · rcases hloop1 : mulLoop1 s1.con s1.con s2.con s2.cov
        ((tensor_type s2.tensor).1 : Int) with e | ps1
      · obtain ⟨m, hm⟩ := mulLoop1_error_kind s1.con s2.con s2.cov
          ((tensor_type s2.tensor).1 : Int) s1.con e hloop1
        unfold mul
        rw [hloop1, hm]
        rfl
      · obtain ⟨m, hm⟩ := mulLoop2_collision s1.cov s2.con s2.cov
          ((tensor_type s1.tensor).1 : Int) s1.cov hcol
        unfold mul
        rw [hloop1, hm]
        rfl

/-- Witness for C4 applied at concrete expressions: `'k'` shared in
contravariant position raises the collision error; sharing only the wildcard
does not. -/
theorem C4_collision_error_witness :
    isCollisionErr (mul ⟨.atom 0 2 0, false, ['i', 'k'], []⟩
      ⟨.atom 1 2 0, false, ['k', 'j'], []⟩) = true ∧
    isCollisionErr (mul ⟨.atom 0 1 0, false, ['.'], []⟩
      ⟨.atom 1 1 0, false, ['.'], []⟩) = false :=
  ⟨(C4_collision_error _ _).mpr (Or.inl ⟨'k', by decide, by decide, by decide⟩),
   by
    have h := (C4_collision_error ⟨.atom 0 1 0, false, ['.'], []⟩
      ⟨.atom 1 1 0, false, ['.'], []⟩)
    rcases hb : isCollisionErr (mul ⟨.atom 0 1 0, false, ['.'], []⟩
      ⟨.atom 1 1 0, false, ['.'], []⟩) with _ | _
    · rfl
    · rcases h.mp hb with ⟨c, hc, h1, h2⟩ | ⟨c, hc, _, _⟩
      · rcases List.mem_singleton.mp hc with rfl
        exact absurd rfl h1
      · exact absurd hc (List.not_mem_nil c)⟩

/-! ### C6: format and rank errors -/

theorem count_sum_length (s : List Char) :
    ∑ c ∈ s.toFinset, s.count c = s.length := by
  have h := Multiset.toFinset_sum_count_eq (s : Multiset Char)
  simpa using h

theorem dup_key (s : List Char) :
    (s.length = s.dedup.length + (s.count '.' - 1)) ↔
      (∀ c ∈ s, c ≠ '.' → s.count c ≤ 1) := by
  have hL : ∑ c ∈ s.toFinset, s.count c = s.length := count_sum_length s
  have hD : s.toFinset.card = s.dedup.length := List.card_toFinset s
  by_cases hdot : '.' ∈ s
  · have hdF : '.' ∈ s.toFinset := List.mem_toFinset.mpr hdot
    have hK : 0 < s.count '.' := List.count_pos_iff.mpr hdot
    have hsum : s.count '.' + ∑ c ∈ s.toFinset.erase '.', s.count c =
        ∑ c ∈ s.toFinset, s.count c :=
      Finset.add_sum_erase s.toFinset (fun c => s.count c) hdF
    have hcard : (s.toFinset.erase '.').card = s.toFinset.card - 1 :=
      Finset.card_erase_of_mem hdF
    have hcardF : 0 < s.toFinset.card := Finset.card_pos.mpr ⟨_, hdF⟩
    have hone : ∀ c ∈ s.toFinset.erase '.', 1 ≤ s.count c := by
      intro c hc
      exact List.count_pos_iff.mpr (List.mem_toFinset.mp (Finset.mem_of_mem_erase hc))
    have hiff := Finset.sum_eq_sum_iff_of_le hone
    simp only [Finset.sum_const, smul_eq_mul, mul_one] at hiff
    constructor
    · intro hlen c hcs hcne
      have hall : ∀ c ∈ s.toFinset.erase '.', (1 : ℕ) = s.count c := hiff.mp (by omega)
      have hcF : c ∈ s.toFinset.erase '.' :=
        Finset.mem_erase.mpr ⟨hcne, List.mem_toFinset.mpr hcs⟩
      have := hall c hcF
      omega
    · intro hbound
      have hall : ∀ c ∈ s.toFinset.erase '.', (1 : ℕ) = s.count c := by
        intro c hc
        have h1 := hone c hc
        have hcm := Finset.mem_erase.mp hc
        have h2 := hbound c (List.mem_toFinset.mp hcm.2) hcm.1
        omega
      have := hiff.mpr hall
      omega
  · have hK : s.count '.' = 0 := List.count_eq_zero.mpr hdot
    have hone : ∀ c ∈ s.toFinset, 1 ≤ s.count c := fun c hc =>
      List.count_pos_iff.mpr (List.mem_toFinset.mp hc)
    have hiff := Finset.sum_eq_sum_iff_of_le hone
    simp only [Finset.sum_const, smul_eq_mul, mul_one] at hiff
    constructor
    · intro hlen c hcs hcne
      have hall : ∀ c ∈ s.toFinset, (1 : ℕ) = s.count c := hiff.mp (by omega)
      have := hall c (List.mem_toFinset.mpr hcs)
      omega
    · intro hbound
      have hall : ∀ c ∈ s.toFinset, (1 : ℕ) = s.count c := by
        intro c hc
        have h1 := hone c hc
        by_cases hcd : c = '.'
        · subst hcd
          exact absurd (List.mem_toFinset.mp hc) hdot
        · have := hbound c (List.mem_toFinset.mp hc) hcd
          omega
      have := hiff.mpr hall
      omega

/-- The duplicate test of the source is exactly "some non-wildcard letter
repeats": repeated wildcards never make it fire. -/
theorem dupFails_iff (s : List Char) : dupFails s = true ↔ hasNonWildcardDup s := by
  have hb : dupFails s = true ↔
      ¬(s.length = s.dedup.length + (s.count '.' - 1)) := by
    simp [dupFails]
  rw [hb]
  constructor
  · intro hne
    by_contra hnd
    apply hne
    apply (dup_key s).mpr
    intro c hc hcne
    by_contra hgt
    exact hnd ⟨c, hc, hcne, by omega⟩
  · rintro ⟨c, hc, hcne, hcount⟩ heq
    have := (dup_key s).mp heq c hc hcne
    omega

theorem splitParts_ok_of (l : List Char)
    (h : con_then_cov_match l = true ∨ cov_then_con_match l = true) :
    ∃ con cov, splitParts l = .ok (con, cov) := by
  unfold splitParts
  by_cases hA : con_then_cov_match l = true
  · simp only [hA, if_true]
    split
    · exact ⟨_, _, rfl⟩
    · exact ⟨_, _, rfl⟩
  · have hB : cov_then_con_match l = true := by
      rcases h with h | h
      · exact absurd h hA
      · exact h
    simp only [hA, hB, Bool.false_eq_true, if_false, if_true]
    split
    · exact ⟨_, _, rfl⟩
    · exact ⟨_, _, rfl⟩

theorem splitParts_error_eq (l : List Char)
    (h : ¬(con_then_cov_match l = true ∨ cov_then_con_match l = true)) :
    splitParts l = .error (.valueError "Index conventions not satisfied") := by
  push_neg at h
  unfold splitParts
  simp [h.1, h.2]

theorem construct_formatErr_char (t : Tensor) (s : String) (con cov : List Char)
    (hsp : splitParts (stripBraces s.data) = .ok (con, cov)) :
    formatErr (construct t s) = true ↔
      (dupFails (stripGroupPunct con) = true ∨ dupFails (stripGroupPunct cov) = true) := by
  unfold construct
  rw [hsp]
  by_cases hd1 : dupFails (stripGroupPunct con) = true
  · simp [hd1, formatErr]
  · by_cases hd2 : dupFails (stripGroupPunct cov) = true
    · simp [hd1, hd2, formatErr]
    · simp only [Bool.not_eq_true] at hd1 hd2
      simp only [hd1, hd2, Bool.false_eq_true, if_false]
      constructor
      · intro hf
        split at hf
        · cases hf
        · split at hf
          · cases hf
          · cases hf
      · rintro (h | h) <;> exact h.elim

/-- Construction raises a `ValueError` (format error) exactly when the
brace-stripped notation string fails both top-level regular expressions (as
the code evaluates them, with the `$` trailing-newline sliver) or a
non-wildcard letter repeats within one variance part; repeated wildcards are
never an error.  The rejected examples of the docstring (`"([..])"`,
`"(.."`, `"ii"`, `"^(ij)^(kl)"`, `"^éa"`) and the accepted `".."` are
instantiated. -/
theorem construct_formatErr_iff :
    (∀ (t : Tensor) (s : String),
      formatErr (construct t s) = true ↔
        (¬(con_then_cov_match (stripBraces s.data) = true ∨
           cov_then_con_match (stripBraces s.data) = true) ∨
         ∃ con cov, splitParts (stripBraces s.data) = .ok (con, cov) ∧
           (hasNonWildcardDup (stripGroupPunct con) ∨
            hasNonWildcardDup (stripGroupPunct cov)))) ∧
    formatErr (construct (.atom 0 2 0) "([..])") = true ∧
    formatErr (construct (.atom 0 2 0) "(..") = true ∧
    formatErr (construct (.atom 0 2 0) "ii") = true ∧
    formatErr (construct (.atom 0 4 0) "^(ij)^(kl)") = true ∧
    formatErr (construct (.atom 0 2 0) "^éa") = true ∧
    construct (.atom 0 2 0) ".." = .ok ⟨.atom 0 2 0, false, ['.', '.'], []⟩ := by
  refine ⟨?_, by decide, by decide, by decide, by decide, by decide, by decide⟩
  intro t s
  by_cases hAB : con_then_cov_match (stripBraces s.data) = true ∨
      cov_then_con_match (stripBraces s.data) = true
  · obtain ⟨con, cov, hsp⟩ := splitParts_ok_of _ hAB
    rw [construct_formatErr_char t s con cov hsp]
    constructor
    · rintro (h | h)
      · exact Or.inr ⟨con, cov, hsp, Or.inl ((dupFails_iff _).mp h)⟩
      · exact Or.inr ⟨con, cov, hsp, Or.inr ((dupFails_iff _).mp h)⟩
    · rintro (h | ⟨con', cov', hsp', hd⟩)
      · exact absurd hAB h
      · rw [hsp] at hsp'
        simp only [Except.ok.injEq, Prod.mk.injEq] at hsp'
        obtain ⟨h1, h2⟩ := hsp'
        subst h1
        subst h2
        rcases hd with hd | hd
        · exact Or.inl ((dupFails_iff _).mpr hd)
        · exact Or.inr ((dupFails_iff _).mpr hd)
  · have hsp := splitParts_error_eq _ hAB
    have hcon : construct t s = .error (.valueError "Index conventions not satisfied") := by
      unfold construct
      rw [hsp]
    rw [hcon]
    constructor
    · intro _
      exact Or.inl hAB
    · intro _
      rfl

/-- C6: for a grammatically well-formed notation string (the split succeeds
and no variance part has a duplicate non-wildcard letter), construction
raises an `IndexError` — a kind distinct from the `ValueError` format error —
exactly when a part's symbol count (group punctuation stripped) differs from
the corresponding rank of the tensor. -/
theorem C6_rank_error :
    (∀ (t : Tensor) (s : String) (con cov : List Char),
      splitParts (stripBraces s.data) = .ok (con, cov) →
      ¬hasNonWildcardDup (stripGroupPunct con) →
      ¬hasNonWildcardDup (stripGroupPunct cov) →
      (rankErr (construct t s) = true ↔
        ((stripGroupPunct con).length ≠ (tensor_type t).1 ∨
         (stripGroupPunct cov).length ≠ (tensor_type t).2))) ∧
    (∀ x : Except TWIError TWIState, ¬(formatErr x = true ∧ rankErr x = true)) := by
  constructor
  · intro t s con cov hsp hd1 hd2
    have hdf1 : dupFails (stripGroupPunct con) = false := by
      cases hdb : dupFails (stripGroupPunct con)
      · rfl
      · exact absurd ((dupFails_iff _).mp hdb) hd1
    have hdf2 : dupFails (stripGroupPunct cov) = false := by
      cases hdb : dupFails (stripGroupPunct cov)
      · rfl
      · exact absurd ((dupFails_iff _).mp hdb) hd2
    unfold construct
    rw [hsp]
    simp only [hdf1, hdf2, Bool.false_eq_true, if_false]
    by_cases hr1 : (stripGroupPunct con).length = (tensor_type t).1
    · by_cases hr2 : (stripGroupPunct cov).length = (tensor_type t).2
      · simp [hr1, hr2, rankErr]
      · simp [hr1, hr2, rankErr]
    · simp [hr1, rankErr]
  · intro x
    rintro ⟨h1, h2⟩
    cases x with
    | error e =>
      cases e with
      | valueError m => simp [rankErr] at h2
      | indexError m => simp [formatErr] at h1
    | ok st => simp [formatErr] at h1

/-- Witness for C6: three symbols against a rank-(1,0) tensor raise the rank
mismatch `IndexError`. -/
theorem C6_rank_error_witness :
    rankErr (construct (.atom 0 1 0) "abc") = true :=
  (C6_rank_error.1 (.atom 0 1 0) "abc" ['a', 'b', 'c'] [] (by decide) (by decide)
    (by decide)).mpr (Or.inl (by decide))

/-! ### C10: no-operation construction -/

theorem findGroup_none (s : List Char) (hs : ∀ c ∈ s, c ≠ '(' ∧ c ≠ '[') :
    ∀ i, findGroup s i = none := by
  induction s with
  | nil => intro i; rfl
  | cons c rest ih =>
    intro i
    have hc := hs c (List.mem_cons_self c rest)
    simp only [findGroup]
    rw [if_neg (by simp [hc.1, hc.2])]
    exact ih (fun d hd => hs d (List.mem_cons_of_mem c hd)) (i + 1)

theorem applyGroupsCon_id (fuel : Nat) (t : Tensor) (ch : Bool) (s : List Char)
    (h : findGroup s 0 = none) : applyGroupsCon fuel t ch s = (t, ch, s) := by
  cases fuel with
  | zero => rfl
  | succ n => simp only [applyGroupsCon, h]

theorem applyGroupsCov_id (fuel : Nat) (t : Tensor) (ch : Bool) (s : List Char)
    (h : findGroup s 0 = none) : applyGroupsCov fuel t ch s = (t, ch, s) := by
  cases fuel with
  | zero => rfl
  | succ n => simp only [applyGroupsCov, h]

theorem contractionPairList_nil (fullCon cov : List Char) (p : Int) :
    ∀ rem, (∀ c ∈ rem, c ≠ '.' → c ∉ cov) →
    contractionPairList rem fullCon cov p = [] := by
  intro rem
  induction rem with
  | nil => intro _; rfl
  | cons c rest ih =>
    intro h
    have hc := h c (List.mem_cons_self c rest)
    simp only [contractionPairList]
    rw [if_neg (by rintro ⟨h1, h2⟩; exact hc h1 h2)]
    exact ih (fun d hd => h d (List.mem_cons_of_mem c hd))

/-- C10: when the (validated and split) notation contains no parenthesis or
bracket group and no non-wildcard letter occurs in both variance parts, a
successful construction applies no tensor operation at all: the stored
tensor is the very tensor passed in, the `_changed` flag is false, and the
parts are stored verbatim. -/
theorem C10_no_operation (t : Tensor) (s : String) (con cov : List Char) (st : TWIState)
    (hsp : splitParts (stripBraces s.data) = .ok (con, cov))
    (hcon : ∀ c ∈ con, c ≠ '(' ∧ c ≠ '[')
    (hcov : ∀ c ∈ cov, c ≠ '(' ∧ c ≠ '[')
    (hnoshare : ∀ c ∈ con, c ≠ '.' → c ∉ cov)
    (hok : construct t s = .ok st) :
    st = ⟨t, false, con, cov⟩ := by
  have hops : constructOps t con cov = ⟨t, false, con, cov⟩ := by
    simp only [constructOps,
      applyGroupsCon_id con.length t false con (findGroup_none con hcon 0),
      applyGroupsCov_id cov.length t false cov (findGroup_none cov hcov 0)]
    rw [contractionPairList_nil con cov _ con hnoshare]
    rfl
  unfold construct at hok
  rw [hsp] at hok
  dsimp only at hok
  split at hok
  · cases hok
  · split at hok
    · cases hok
    · split at hok
      · cases hok
      · split at hok
        · cases hok
        · rw [hops] at hok
          exact (Except.ok.inj hok).symm

/-- Witness for C10: `"a_b"` on a (1,1) tensor stores the tensor unchanged
with the `_changed` flag false. -/
theorem C10_no_operation_witness :
    (⟨.atom 0 1 1, false, ['a'], ['b']⟩ : TWIState) =
      ⟨.atom 0 1 1, false, ['a'], ['b']⟩ :=
  C10_no_operation (.atom 0 1 1) "a_b" ['a'] ['b'] ⟨.atom 0 1 1, false, ['a'], ['b']⟩
    (by decide) (by decide) (by decide) (by decide) (by decide)

/-! ### List utilities -/

theorem getD_mem (l : List Char) : ∀ i, i < l.length → l.getD i ' ' ∈ l := by
  induction l with
  | nil => intro i hi; simp at hi
  | cons c rest ih =>
    intro i hi
    cases i with
    | zero => exact List.mem_cons_self c rest
    | succ i' => exact List.mem_cons_of_mem c (ih i' (by simpa using hi))

theorem getD_append_left (pre suf : List Char) (i : Nat) (h : i < pre.length) :
    (pre ++ suf).getD i ' ' = pre.getD i ' ' := by
  simp [List.getD_eq_getElem?_getD, List.getElem?_append_left h]

theorem getD_take (l : List Char) (n i : Nat) (h : i < n) :
    (l.take n).getD i ' ' = l.getD i ' ' := by
  simp [List.getD_eq_getElem?_getD, List.getElem?_take_of_lt h]

theorem getD_drop (l : List Char) (n i : Nat) :
    (l.drop n).getD i ' ' = l.getD (n + i) ' ' := by
  simp [List.getD_eq_getElem?_getD]

theorem filter_ne_length (c : Char) : ∀ l : List Char,
    (l.filter (fun d => d ≠ c)).length + l.count c = l.length := by
  intro l
  induction l with
  | nil => rfl
  | cons d rest ih =>
    by_cases h : d = c
    · subst h
      rw [List.filter_cons, if_neg (by simp), List.count_cons, if_pos (by simp)]
      simp only [List.length_cons]
      omega
    · rw [List.filter_cons, if_pos (by simp [h]), List.count_cons,
        if_neg (by simp [h]), List.length_cons, List.length_cons]
      omega

theorem count_two (c : Char) : ∀ (l : List Char) (i j : Nat), i < j → j < l.length →
    l.getD i ' ' = c → l.getD j ' ' = c → 2 ≤ l.count c := by
  intro l
  induction l with
  | nil => intro i j _ hj _ _; simp at hj
  | cons d rest ih =>
    intro i j hij hj hci hcj
    cases i with
    | zero =>
      have hd : d = c := hci
      cases j with
      | zero => omega
      | succ j' =>
        have hcj' : rest.getD j' ' ' = c := hcj
        have hmem : c ∈ rest := by
          have := getD_mem rest j' (by simpa using hj)
          rwa [hcj'] at this
        have hpos : 0 < rest.count c := List.count_pos_iff.mpr hmem
        subst hd
        simp only [List.count_cons, beq_self_eq_true, if_true]
        omega
    | succ i' =>
      cases j with
      | zero => omega
      | succ j' =>
        have h2 := ih i' j' (by omega) (by simpa using hj) hci hcj
        simp only [List.count_cons]
        omega

theorem filter_unique (c : Char) : ∀ (l : List Char) (i : Nat), i < l.length →
    l.getD i ' ' = c → l.count c = 1 →
    l.filter (fun d => d ≠ c) = l.take i ++ l.drop (i + 1) := by
  intro l
  induction l with
  | nil => intro i hi _ _; simp at hi
  | cons d rest ih =>
    intro i hi hgd hcount
    cases i with
    | zero =>
      have hd : d = c := hgd
      subst hd
      have h0 : rest.count d = 0 := by
        simp only [List.count_cons, beq_self_eq_true, if_true] at hcount
        omega
      have hnot : d ∉ rest := List.count_eq_zero.mp h0
      simp only [List.take, List.drop, List.nil_append]
      rw [List.filter_cons]
      rw [if_neg (by simp)]
      exact List.filter_eq_self.mpr (fun a ha => by
        simp only [ne_eq, decide_eq_true_eq]
        intro he
        exact hnot (he ▸ ha))
    | succ i' =>
      have hd : d ≠ c := by
        intro he
        subst he
        have h2 := count_two d (d :: rest) 0 (i' + 1) (by omega) hi rfl hgd
        omega
      have hcount' : rest.count c = 1 := by
        simp only [List.count_cons] at hcount
        rw [if_neg (by simpa using hd)] at hcount
        omega
      rw [List.filter_cons, if_pos (by simpa using hd)]
      rw [ih i' (by simpa using hi) hgd hcount']
      rfl

theorem pyIndex_append (c : Char) : ∀ pre suf, c ∉ pre →
    pyIndex (pre ++ c :: suf) c = pre.length := by
  intro pre
  induction pre with
  | nil => intro suf _; simp [pyIndex]
  | cons d rest ih =>
    intro suf h
    have hd : d ≠ c := fun he => h (he ▸ List.mem_cons_self d rest)
    simp [pyIndex, hd, ih suf (fun hm => h (List.mem_cons_of_mem d hm))]

theorem pyReplace_id (c : Char) (l : List Char) (h : c ∉ l) : pyReplace c l = l :=
  List.filter_eq_self.mpr (fun a ha => by
    simp only [ne_eq, decide_eq_true_eq]
    intro he
    exact h (he ▸ ha))

theorem pySplit_ne_nil (sep : Char) : ∀ l, pySplit sep l ≠ [] := by
  intro l
  cases l with
  | nil => simp [pySplit]
  | cons c rest =>
    simp only [pySplit]
    cases pySplit sep rest with
    | nil => simp
    | cons grp rs => by_cases h : c = sep <;> simp [h]

theorem pySplit_single (sep : Char) : ∀ l a, pySplit sep l = [a] → a = l := by
  intro l
  induction l with
  | nil =>
    intro a h
    simp only [pySplit, List.cons.injEq] at h
    exact h.1.symm
  | cons c rest ih =>
    intro a h
    rcases hps : pySplit sep rest with _ | ⟨grp, rs⟩
    · exact absurd hps (pySplit_ne_nil sep rest)
    · simp only [pySplit, hps] at h
      by_cases hc : c = sep
      · simp [hc] at h
      · rw [if_neg hc] at h
        injection h with h1 h2
        have hgrp := ih grp (by rw [hps, h2])
        rw [← h1, hgrp]

theorem mem_pySplit (sep : Char) : ∀ l c, c ∈ l →
    c = sep ∨ ∃ part ∈ pySplit sep l, c ∈ part := by
  intro l
  induction l with
  | nil => intro c hc; exact absurd hc (List.not_mem_nil c)
  | cons d rest ih =>
    intro c hc
    rcases hps : pySplit sep rest with _ | ⟨grp, rs⟩
    · exact absurd hps (pySplit_ne_nil sep rest)
    · rcases List.mem_cons.mp hc with rfl | hc'
      · by_cases hd : c = sep
        · exact Or.inl hd
        · right
          refine ⟨c :: grp, ?_, List.mem_cons_self c grp⟩
          simp [pySplit, hps, hd]
      · rcases ih c hc' with h | ⟨part, hp, hcp⟩
        · exact Or.inl h
        · right
          rw [hps] at hp
          by_cases hd : d = sep
          · refine ⟨part, ?_, hcp⟩
            simp only [pySplit, hps]
            rw [if_pos hd]
            exact List.mem_cons_of_mem _ hp
          · rcases List.mem_cons.mp hp with rfl | hpr
            · refine ⟨d :: part, ?_, List.mem_cons_of_mem d hcp⟩
              simp [pySplit, hps, hd]
            · refine ⟨part, ?_, hcp⟩
              simp only [pySplit, hps]
              rw [if_neg hd]
              exact List.mem_cons_of_mem _ hpr

/-! ### Matcher and group decomposition -/

theorem matchP_opener (d : Char) (rest : List Char) (hm : matchP (d :: rest) = true)
    (hop : d = '(' ∨ d = '[') :
    ∃ cl0, ((d = '(' ∧ cl0 = ')') ∨ (d = '[' ∧ cl0 = ']')) ∧
      matchPAux (.group cl0 0) rest = true := by
  rcases hop with rfl | rfl
  · refine ⟨')', Or.inl ⟨rfl, rfl⟩, ?_⟩
    simpa [matchP, matchPAux] using hm
  · refine ⟨']', Or.inr ⟨rfl, rfl⟩, ?_⟩
    have hne : ('[' : Char) ≠ '(' := by decide
    simpa [matchP, matchPAux, hne] using hm

theorem matchP_idxhead (d : Char) (rest : List Char) (hm : matchP (d :: rest) = true)
    (h1 : ¬(d = '(' ∨ d = '[')) : isIdxChar d = true ∧ matchP rest = true := by
  have h := hm
  simp only [matchP, matchPAux] at h
  push_neg at h1
  rw [if_neg h1.1, if_neg h1.2] at h
  by_cases h3 : isIdxChar d = true
  · rw [if_pos h3] at h
    exact ⟨h3, h⟩
  · rw [if_neg h3] at h
    cases h

theorem matchGroup_decomp : ∀ (l : List Char) (cl : Char) (n : Nat),
    matchPAux (.group cl n) l = true →
    ∃ body suf, l = body ++ cl :: suf ∧ (∀ c ∈ body, isIdxChar c = true ∧ c ≠ cl) ∧
      2 ≤ n + body.length ∧ matchPAux .top suf = true := by
  intro l
  induction l with
  | nil => intro cl n hm; cases hm
  | cons d rest ih =>
    intro cl n hm
    simp only [matchPAux] at hm
    by_cases h1 : d = cl
    · rw [if_pos h1] at hm
      rw [Bool.and_eq_true] at hm
      obtain ⟨hn, hrest⟩ := hm
      refine ⟨[], rest, by rw [h1]; rfl, ?_, ?_, hrest⟩
      · intro c hc
        exact absurd hc (List.not_mem_nil c)
      · simpa using of_decide_eq_true hn
    · rw [if_neg h1] at hm
      by_cases h3 : isIdxChar d = true
      · rw [if_pos h3] at hm
        obtain ⟨body, suf, heq, hbody, hlen, hsuf⟩ := ih cl (n + 1) hm
        refine ⟨d :: body, suf, by rw [heq]; rfl, ?_, ?_, hsuf⟩
        · intro c hc
          rcases List.mem_cons.mp hc with rfl | hc'
          · exact ⟨h3, h1⟩
          · exact hbody c hc'
        · simp only [List.length_cons]
          omega
      · rw [if_neg h3] at hm
        cases hm

theorem scanBody_concat : ∀ (body : List Char), (∀ c ∈ body, isIdxChar c = true) →
    ∀ (cl : Char), (cl = ')' ∨ cl = ']') → ∀ (suf : List Char) (i : Nat),
    scanBody (body ++ cl :: suf) i = some (i + body.length) := by
  intro body
  induction body with
  | nil =>
    intro _ cl hcl suf i
    simp only [List.nil_append, scanBody]
    rw [if_pos (by rcases hcl with rfl | rfl <;> simp)]
    simp
  | cons d rest ih =>
    intro hall cl hcl suf i
    have hd := hall d (List.mem_cons_self d rest)
    have hd1 : ¬(d = ')' ∨ d = ']') := by
      rintro (rfl | rfl) <;> exact absurd hd (by decide)
    simp only [List.cons_append, scanBody]
    rw [if_neg (by simpa using hd1), if_pos hd]
    have hrec := ih (fun c hc => hall c (List.mem_cons_of_mem d hc)) cl hcl suf (i + 1)
    rw [List.length_cons, show i + (rest.length + 1) = (i + 1) + rest.length from by omega]
    exact hrec

theorem matchP_idx_append : ∀ (l r : List Char), (∀ c ∈ l, isIdxChar c = true) →
    matchPAux .top (l ++ r) = matchPAux .top r := by
  intro l
  induction l with
  | nil => intro r _; rfl
  | cons d rest ih =>
    intro r hall
    have hd := hall d (List.mem_cons_self d rest)
    have h1 : d ≠ '(' := by rintro rfl; exact absurd hd (by decide)
    have h2 : d ≠ '[' := by rintro rfl; exact absurd hd (by decide)
    simp only [List.cons_append, matchPAux]
    rw [if_neg h1, if_neg h2, if_pos hd]
    exact ih r (fun c hc => hall c (List.mem_cons_of_mem d hc))

theorem findGroup_match : ∀ (s : List Char), matchP s = true →
    ∀ (k i j : Nat) (op : Char), findGroup s k = some (i, j, op) →
    ∃ pre body suf cl,
      s = pre ++ op :: body ++ cl :: suf ∧
      (∀ c ∈ pre, isIdxChar c = true) ∧
      (∀ c ∈ body, isIdxChar c = true) ∧
      ((op = '(' ∧ cl = ')') ∨ (op = '[' ∧ cl = ']')) ∧
      2 ≤ body.length ∧ matchP suf = true ∧
      i = k + pre.length ∧ j = i + body.length + 1 := by
  intro s
  induction s with
  | nil => intro _ k i j op h; cases h
  | cons d rest ih =>
    intro hm k i j op hfg
    simp only [findGroup] at hfg
    by_cases h1 : (d = '(' || d = '[') = true
    · have hop : d = '(' ∨ d = '[' := by simpa using h1
      obtain ⟨cl0, hcl0, hgrp⟩ := matchP_opener d rest hm hop
      obtain ⟨body, suf, heq, hbody, hlen, hsuf⟩ := matchGroup_decomp rest cl0 0 hgrp
      have hsb : scanBody rest (k + 1) = some (k + 1 + body.length) := by
        rw [heq]
        refine scanBody_concat body (fun c hc => (hbody c hc).1) cl0 ?_ suf (k + 1)
        rcases hcl0 with ⟨_, h⟩ | ⟨_, h⟩
        · exact Or.inl h
        · exact Or.inr h
      rw [if_pos h1] at hfg
      simp only [hsb] at hfg
      have h3 := Option.some.inj hfg
      obtain ⟨hi, hj, hopeq⟩ : k = i ∧ k + 1 + body.length = j ∧ d = op := by
        simpa [Prod.ext_iff] using h3
      refine ⟨[], body, suf, cl0, ?_, ?_, fun c hc => (hbody c hc).1, ?_, ?_, hsuf, ?_, ?_⟩
      · rw [← hopeq, heq]
        rfl
      · intro c hc
        exact absurd hc (List.not_mem_nil c)
      · rw [← hopeq]
        exact hcl0
      · simpa using hlen
      · simp only [List.length_nil]
        omega
      · omega
    · rw [if_neg h1] at hfg
      have hno : ¬(d = '(' ∨ d = '[') := by simpa using h1
      obtain ⟨hd, hrest⟩ := matchP_idxhead d rest hm hno
      obtain ⟨pre, body, suf, cl, heq, hpre, hbody, hcl, hlen, hsuf, hi, hj⟩ :=
        ih hrest (k + 1) i j op hfg
      refine ⟨d :: pre, body, suf, cl, by rw [heq]; rfl, ?_, hbody, hcl, hlen, hsuf, ?_, hj⟩
      · intro c hc
        rcases List.mem_cons.mp hc with rfl | hc'
        · exact hd
        · exact hpre c hc'
      · simp only [List.length_cons]
        omega

theorem matchP_noGroup : ∀ (s : List Char) (k : Nat), matchP s = true →
    findGroup s k = none → ∀ c ∈ s, isIdxChar c = true := by
  intro s
  induction s with
  | nil => intro k _ _ c hc; exact absurd hc (List.not_mem_nil c)
  | cons d rest ih =>
    intro k hm hfg c hc
    simp only [findGroup] at hfg
    by_cases h1 : (d = '(' || d = '[') = true
    · exfalso
      rw [if_pos h1] at hfg
      have hop : d = '(' ∨ d = '[' := by simpa using h1
      obtain ⟨cl0, hcl0, hgrp⟩ := matchP_opener d rest hm hop
      obtain ⟨body, suf, heq, hbody, hlen, hsuf⟩ := matchGroup_decomp rest cl0 0 hgrp
      have hsb : scanBody rest (k + 1) = some (k + 1 + body.length) := by
        rw [heq]
        refine scanBody_concat body (fun c hc => (hbody c hc).1) cl0 ?_ suf (k + 1)
        rcases hcl0 with ⟨_, h⟩ | ⟨_, h⟩
        · exact Or.inl h
        · exact Or.inr h
      simp only [hsb] at hfg
      cases hfg
    · rw [if_neg h1] at hfg
      have hno : ¬(d = '(' ∨ d = '[') := by simpa using h1
      obtain ⟨hd, hrest⟩ := matchP_idxhead d rest hm hno
      rcases List.mem_cons.mp hc with rfl | hc'
      · exact hd
      · exact ih (k + 1) hrest hfg c hc'

theorem stripGroupPunct_append (a b : List Char) :
    stripGroupPunct (a ++ b) = stripGroupPunct a ++ stripGroupPunct b :=
  List.filter_append a b

theorem stripGroupPunct_delim_cons (c : Char) (l : List Char)
    (h : c = '(' ∨ c = ')' ∨ c = '[' ∨ c = ']') :
    stripGroupPunct (c :: l) = stripGroupPunct l := by
  rcases h with rfl | rfl | rfl | rfl <;>
    · rw [stripGroupPunct, List.filter_cons, if_neg (by decide)]
      rfl

theorem stripGroupPunct_id (l : List Char) (h : ∀ c ∈ l, isIdxChar c = true) :
    stripGroupPunct l = l := by
  refine List.filter_eq_self.mpr (fun a ha => ?_)
  have hida := h a ha
  have h1 : a ≠ '(' := by rintro rfl; exact absurd hida (by decide)
  have h2 : a ≠ ')' := by rintro rfl; exact absurd hida (by decide)
  have h3 : a ≠ '[' := by rintro rfl; exact absurd hida (by decide)
  have h4 : a ≠ ']' := by rintro rfl; exact absurd hida (by decide)
  simp [h1, h2, h3, h4]

theorem groupStep (s : List Char) (i j : Nat) (op : Char)
    (hm : matchP s = true) (hfg : findGroup s 0 = some (i, j, op)) :
    matchP (removeDelims s i j) = true ∧
    stripGroupPunct (removeDelims s i j) = stripGroupPunct s ∧
    (removeDelims s i j).length + 2 = s.length := by
  obtain ⟨pre, body, suf, cl, heq, hpre, hbody, hcl, hlen, hsuf, hi, hj⟩ :=
    findGroup_match s hm 0 i j op hfg
  have hi' : i = pre.length := by omega
  have hop : op = '(' ∨ op = ')' ∨ op = '[' ∨ op = ']' := by
    rcases hcl with ⟨h, _⟩ | ⟨h, _⟩
    · exact Or.inl h
    · exact Or.inr (Or.inr (Or.inl h))
  have hclo : cl = '(' ∨ cl = ')' ∨ cl = '[' ∨ cl = ']' := by
    rcases hcl with ⟨_, h⟩ | ⟨_, h⟩
    · exact Or.inr (Or.inl h)
    · exact Or.inr (Or.inr (Or.inr h))
  have hrd : removeDelims s i j = pre ++ body ++ suf := by
    subst heq
    subst hi'
    subst hj
    have e1 : ((pre ++ op :: body) ++ cl :: suf).take pre.length = pre := by
      rw [List.append_assoc]
      exact List.take_left' rfl
    have e2 : ((pre ++ op :: body) ++ cl :: suf).drop (pre.length + 1) = body ++ cl :: suf := by
      rw [show (pre ++ op :: body) ++ cl :: suf = (pre ++ [op]) ++ (body ++ cl :: suf) from
        by simp]
      exact List.drop_left' (by simp)
    have e3 : (pre.length + body.length + 1) - (pre.length + 1) = body.length := by omega
    have e4 : ((pre ++ op :: body) ++ cl :: suf).drop (pre.length + body.length + 1 + 1) =
        suf := by
      rw [show (pre ++ op :: body) ++ cl :: suf = ((pre ++ op :: body) ++ [cl]) ++ suf from
        by simp]
      refine List.drop_left' ?_
      simp only [List.length_append, List.length_cons, List.length_nil]
      omega
    unfold removeDelims pySlice
    rw [e1, e2, e3, e4, List.take_left' rfl]
  refine ⟨?_, ?_, ?_⟩
  · rw [hrd]
    show matchPAux .top _ = true
    rw [List.append_assoc, matchP_idx_append pre _ hpre, matchP_idx_append body suf hbody]
    exact hsuf
  · rw [hrd, heq]
    rw [stripGroupPunct_append (pre ++ body) suf, stripGroupPunct_append pre body,
      stripGroupPunct_append (pre ++ op :: body) (cl :: suf),
      stripGroupPunct_append pre (op :: body),
      stripGroupPunct_delim_cons op body hop, stripGroupPunct_delim_cons cl suf hclo]
  · rw [hrd, heq]
    simp only [List.length_append, List.length_cons]
    omega

theorem applyGroupsCon_spec : ∀ (fuel : Nat) (t : Tensor) (ch : Bool) (s : List Char),
    matchP s = true → s.length ≤ fuel →
    (∀ c ∈ (applyGroupsCon fuel t ch s).2.2, isIdxChar c = true) ∧
    (applyGroupsCon fuel t ch s).2.2 = stripGroupPunct s ∧
    tensor_type (applyGroupsCon fuel t ch s).1 = tensor_type t := by
  intro fuel
  induction fuel with
  | zero =>
    intro t ch s _ hlen
    have hs : s = [] := List.length_eq_zero.mp (by omega)
    subst hs
    exact ⟨fun c hc => absurd hc (List.not_mem_nil c), rfl, rfl⟩
  | succ n ih =>
    intro t ch s hm hlen
    cases hfg : findGroup s 0 with
    | none =>
      have hidx := matchP_noGroup s 0 hm hfg
      have hid : applyGroupsCon (n + 1) t ch s = (t, ch, s) := by
        simp only [applyGroupsCon, hfg]
      rw [hid]
      exact ⟨hidx, (stripGroupPunct_id s hidx).symm, rfl⟩
    | some v =>
      obtain ⟨i, j, op⟩ := v
      obtain ⟨hm', hsgp, hlen'⟩ := groupStep s i j op hm hfg
      simp only [applyGroupsCon, hfg]
      have hrec := ih (if op = '(' then Tensor.symmetrize t (pyRange (i : Int) ((j : Int) - 1))
          else Tensor.antisymmetrize t (pyRange (i : Int) ((j : Int) - 1))) true
          (removeDelims s i j) hm' (by omega)
      refine ⟨hrec.1, hrec.2.1.trans hsgp, hrec.2.2.trans ?_⟩
      by_cases hop : op = '('
      · rw [if_pos hop]
        rfl
      · rw [if_neg hop]
        rfl

theorem applyGroupsCov_spec : ∀ (fuel : Nat) (t : Tensor) (ch : Bool) (s : List Char),
    matchP s = true → s.length ≤ fuel →
    (∀ c ∈ (applyGroupsCov fuel t ch s).2.2, isIdxChar c = true) ∧
    (applyGroupsCov fuel t ch s).2.2 = stripGroupPunct s ∧
    tensor_type (applyGroupsCov fuel t ch s).1 = tensor_type t := by
  intro fuel
  induction fuel with
  | zero =>
    intro t ch s _ hlen
    have hs : s = [] := List.length_eq_zero.mp (by omega)
    subst hs
    exact ⟨fun c hc => absurd hc (List.not_mem_nil c), rfl, rfl⟩
  | succ n ih =>
    intro t ch s hm hlen
    cases hfg : findGroup s 0 with
    | none =>
      have hidx := matchP_noGroup s 0 hm hfg
      have hid : applyGroupsCov (n + 1) t ch s = (t, ch, s) := by
        simp only [applyGroupsCov, hfg]
      rw [hid]
      exact ⟨hidx, (stripGroupPunct_id s hidx).symm, rfl⟩
    | some v =>
      obtain ⟨i, j, op⟩ := v
      obtain ⟨hm', hsgp, hlen'⟩ := groupStep s i j op hm hfg
      simp only [applyGroupsCov, hfg]
      have hrec := ih (if op = '(' then
            Tensor.symmetrize t (pyRange (((tensor_type t).1 : Int) + (i : Int))
              (((tensor_type t).1 : Int) + (j : Int) - 1))
          else Tensor.antisymmetrize t (pyRange (((tensor_type t).1 : Int) + (i : Int))
              (((tensor_type t).1 : Int) + (j : Int) - 1))) true
          (removeDelims s i j) hm' (by omega)
      refine ⟨hrec.1, hrec.2.1.trans hsgp, hrec.2.2.trans ?_⟩
      by_cases hop : op = '('
      · rw [if_pos hop]
        rfl
      · rw [if_neg hop]
        rfl

theorem matchPAux_chars : ∀ (s : List Char) (mode : PMode),
    (∀ cl n, mode = PMode.group cl n → cl = ')' ∨ cl = ']') →
    matchPAux mode s = true →
    ∀ c ∈ s, isIdxChar c = true ∨ c = '(' ∨ c = ')' ∨ c = '[' ∨ c = ']' := by
  intro s
  induction s with
  | nil => intro mode _ _ c hc; exact absurd hc (List.not_mem_nil c)
  | cons d rest ih =>
    intro mode hmode hm c hc
    cases mode with
    | top =>
      simp only [matchPAux] at hm
      by_cases h1 : d = '('
      · rw [if_pos h1] at hm
        rcases List.mem_cons.mp hc with rfl | hc'
        · exact Or.inr (Or.inl h1)
        · exact ih (.group ')' 0) (fun cl n he => by cases he; exact Or.inl rfl) hm c hc'
      · rw [if_neg h1] at hm
        by_cases h2 : d = '['
        · rw [if_pos h2] at hm
          rcases List.mem_cons.mp hc with rfl | hc'
          · exact Or.inr (Or.inr (Or.inr (Or.inl h2)))
          · exact ih (.group ']' 0) (fun cl n he => by cases he; exact Or.inr rfl) hm c hc'
        · rw [if_neg h2] at hm
          by_cases h3 : isIdxChar d = true
          · rw [if_pos h3] at hm
            rcases List.mem_cons.mp hc with rfl | hc'
            · exact Or.inl h3
            · exact ih .top (fun _ _ he => by cases he) hm c hc'
          · rw [if_neg h3] at hm
            cases hm
    | group cl n =>
      have hcl := hmode cl n rfl
      simp only [matchPAux] at hm
      by_cases h1 : d = cl
      · rw [if_pos h1] at hm
        rw [Bool.and_eq_true] at hm
        rcases List.mem_cons.mp hc with rfl | hc'
        · rcases hcl with h | h
          · exact Or.inr (Or.inr (Or.inl (h1.trans h)))
          · exact Or.inr (Or.inr (Or.inr (Or.inr (h1.trans h))))
        · exact ih .top (fun _ _ he => by cases he) hm.2 c hc'
      · rw [if_neg h1] at hm
        by_cases h3 : isIdxChar d = true
        · rw [if_pos h3] at hm
          rcases List.mem_cons.mp hc with rfl | hc'
          · exact Or.inl h3
          · exact ih (.group cl (n + 1)) (fun cl' n' he => by cases he; exact hcl) hm c hc'
        · rw [if_neg h3] at hm
          cases hm

theorem matchP_not_mem (s : List Char) (h : matchP s = true) (c : Char)
    (hc : ¬(isIdxChar c = true ∨ c = '(' ∨ c = ')' ∨ c = '[' ∨ c = ']')) : c ∉ s :=
  fun hmem => hc (matchPAux_chars s .top (fun _ _ he => by cases he) h c hmem)

theorem caret_not_mem_parts (sep : Char) (s1 : List Char)
    (hsep : ('^' : Char) ≠ sep)
    (hparts : ∀ part ∈ pySplit sep s1, matchP part = true) : ('^' : Char) ∉ s1 := by
  intro hmem
  rcases mem_pySplit sep s1 '^' hmem with h | ⟨part, hp, hcp⟩
  · exact hsep h
  · exact matchP_not_mem part (hparts part hp) '^' (by decide) hcp

theorem contractionPairList_spec (con cov : List Char) (p : Int) (hnd : nodupNW con) :
    ∀ (rem : List Char) (k : Nat), rem = con.drop k →
    List.Pairwise (fun x y : Int × Int => x.1 < y.1) (contractionPairList rem con cov p) ∧
    (∀ q ∈ contractionPairList rem con cov p, ∃ i : Nat, q.1 = (i : Int) ∧
      k ≤ i ∧ i < con.length ∧ con.getD i ' ' ≠ '.' ∧ con.getD i ' ' ∈ cov) ∧
    (∀ c ∈ rem, c ≠ '.' → c ∈ cov → ∃ q ∈ contractionPairList rem con cov p,
      ∃ i : Nat, q.1 = (i : Int) ∧ con.getD i ' ' = c) := by
  intro rem
  induction rem with
  | nil =>
    intro k _
    exact ⟨List.Pairwise.nil, fun q hq => absurd hq (List.not_mem_nil q),
      fun c hc => absurd hc (List.not_mem_nil c)⟩
  | cons c rest ih =>
    intro k hk
    have hklen : k < con.length := by
      by_contra hge
      push_neg at hge
      rw [List.drop_eq_nil_of_le hge] at hk
      cases hk
    have hgetk : con.getD k ' ' = c := by
      have h0 : (con.drop k).getD 0 ' ' = con.getD (k + 0) ' ' := getD_drop con k 0
      rw [← hk] at h0
      simpa using h0.symm
    have hrest : rest = con.drop (k + 1) := by
      have h1 : (con.drop k).drop 1 = con.drop (k + 1) := List.drop_drop 1 k con
      rw [← hk] at h1
      simpa using h1
    by_cases hq : c ≠ '.' ∧ c ∈ cov
    · have hcon_decomp : con = con.take k ++ c :: con.drop (k + 1) := by
        have h1 := List.take_append_drop k con
        rw [← hk, hrest] at h1
        exact h1.symm
      have hnotin : c ∉ con.take k := by
        intro hmem
        have hsplit : con.count c = (con.take k).count c + (c :: con.drop (k + 1)).count c := by
          conv_lhs => rw [hcon_decomp]
          exact List.count_append _ _ _
        have h1 : 0 < (con.take k).count c := List.count_pos_iff.mpr hmem
        have h2 : 0 < (c :: con.drop (k + 1)).count c := by
          simp [List.count_cons]
        have h3 := hnd c hq.1
        omega
      have hpyk : pyIndex con c = k := by
        conv_lhs => rw [hcon_decomp]
        rw [pyIndex_append c (con.take k) (con.drop (k + 1)) hnotin, List.length_take]
        exact Nat.min_eq_left (le_of_lt hklen)
      simp only [contractionPairList, if_pos hq]
      obtain ⟨ihpw, ihpair, ihcomp⟩ := ih (k + 1) hrest
      refine ⟨?_, ?_, ?_⟩
      · refine List.Pairwise.cons ?_ ihpw
        intro q hq2
        obtain ⟨i2, hq1, hk1, _, _, _⟩ := ihpair q hq2
        rw [hq1]
        show (↑(pyIndex con c) : Int) < ↑i2
        rw [hpyk]
        exact_mod_cast (by omega : k < i2)
      · intro q hq2
        rcases List.mem_cons.mp hq2 with rfl | hq3
        · refine ⟨k, ?_, le_refl k, hklen, ?_, ?_⟩
          · show (↑(pyIndex con c) : Int) = ↑k
            rw [hpyk]
          · rw [hgetk]
            exact hq.1
          · rw [hgetk]
            exact hq.2
        · obtain ⟨i2, h1, h2, h3, h4, h5⟩ := ihpair q hq3
          exact ⟨i2, h1, by omega, h3, h4, h5⟩
      · intro c2 hc2 hne2 hcov2
        rcases List.mem_cons.mp hc2 with rfl | hc3
        · refine ⟨_, List.mem_cons_self _ _, k, ?_, hgetk⟩
          show (↑(pyIndex con c2) : Int) = ↑k
          rw [hpyk]
        · obtain ⟨q, hqmem, i2, hq1, hgd⟩ := ihcomp c2 hc3 hne2 hcov2
          exact ⟨q, List.mem_cons_of_mem _ hqmem, i2, hq1, hgd⟩
    · simp only [contractionPairList, if_neg hq]
      obtain ⟨ihpw, ihpair, ihcomp⟩ := ih (k + 1) hrest
      refine ⟨ihpw, ?_, ?_⟩
      · intro q hq2
        obtain ⟨i2, h1, h2, h3, h4, h5⟩ := ihpair q hq2
        exact ⟨i2, h1, by omega, h3, h4, h5⟩
      · intro c2 hc2 hne2 hcov2
        rcases List.mem_cons.mp hc2 with rfl | hc3
        · exact absurd ⟨hne2, hcov2⟩ hq
        · exact ihcomp c2 hc3 hne2 hcov2

theorem applyTraces_spec : ∀ (fuel : Nat) (pairs : List (Int × Int)) (t : Tensor) (ch : Bool)
    (con cov : List Char),
    pairs.length ≤ fuel →
    (∀ c ∈ con, isIdxChar c = true) → (∀ c ∈ cov, isIdxChar c = true) →
    nodupNW con → nodupNW cov →
    tensor_type t = (con.length, cov.length) →
    List.Pairwise (fun x y : Int × Int => y.1 < x.1) pairs →
    (∀ q ∈ pairs, ∃ i : Nat, q.1 = (i : Int) ∧ i < con.length ∧
      con.getD i ' ' ≠ '.' ∧ con.getD i ' ' ∈ cov) →
    (∀ c ∈ con, c ≠ '.' → c ∈ cov → ∃ q ∈ pairs, ∃ i : Nat, q.1 = (i : Int) ∧
      con.getD i ' ' = c) →
    (∀ c ∈ (applyTracesRev fuel t ch con cov pairs).2.2.1, isIdxChar c = true) ∧
    (∀ c ∈ (applyTracesRev fuel t ch con cov pairs).2.2.2, isIdxChar c = true) ∧
    nodupNW (applyTracesRev fuel t ch con cov pairs).2.2.1 ∧
    nodupNW (applyTracesRev fuel t ch con cov pairs).2.2.2 ∧
    tensor_type (applyTracesRev fuel t ch con cov pairs).1 =
      ((applyTracesRev fuel t ch con cov pairs).2.2.1.length,
       (applyTracesRev fuel t ch con cov pairs).2.2.2.length) ∧
    (∀ c ∈ (applyTracesRev fuel t ch con cov pairs).2.2.1, c ≠ '.' →
      c ∉ (applyTracesRev fuel t ch con cov pairs).2.2.2) := by
  intro fuel
  induction fuel with
  | zero =>
    intro pairs t ch con cov hfuel hconidx hcovidx hndcon hndcov htype _ _ hcomp
    have hpairs : pairs = [] := List.length_eq_zero.mp (by omega)
    subst hpairs
    refine ⟨hconidx, hcovidx, hndcon, hndcov, htype, ?_⟩
    intro c hc hne hmem
    obtain ⟨q, hq, _⟩ := hcomp c hc hne hmem
    exact absurd hq (List.not_mem_nil q)
  | succ n ih =>
    intro pairs t ch con cov hfuel hconidx hcovidx hndcon hndcov htype hpw hpair hcomp
    cases pairs with
    | nil =>
      refine ⟨hconidx, hcovidx, hndcon, hndcov, htype, ?_⟩
      intro c hc hne hmem
      obtain ⟨q, hq, _⟩ := hcomp c hc hne hmem
      exact absurd hq (List.not_mem_nil q)
    | cons ab rest =>
      obtain ⟨a, b⟩ := ab
      obtain ⟨i, ha, hilen, hine, himem⟩ := hpair (a, b) (List.mem_cons_self _ _)
      have ha' : a = (i : Int) := ha
      have hstep : applyTracesRev (n + 1) t ch con cov ((a, b) :: rest) =
          applyTracesRev n (Tensor.trace t a b) true
            (con.filter (fun d => d ≠ pyCharAt con a))
            (cov.filter (fun d => d ≠ pyCharAt con a))
            (rest.map (fun q => ((if q.1 > a then q.1 - 1 else q.1),
              (if q.2 > b then q.2 - 1 else q.2) - 1))) := by
        simp only [applyTracesRev]
      have hca : pyCharAt con a = con.getD i ' ' := by
        rw [ha']
        unfold pyCharAt
        dsimp only
        rw [if_neg (not_lt.mpr (Int.natCast_nonneg i))]
        rw [Int.toNat_natCast]
      rw [hstep, hca]
      have hcmem : con.getD i ' ' ∈ con := getD_mem con i hilen
      have hcount_con : con.count (con.getD i ' ') = 1 := by
        have h1 := hndcon (con.getD i ' ') hine
        have h2 : 0 < con.count (con.getD i ' ') := List.count_pos_iff.mpr hcmem
        omega
      have hcount_cov : cov.count (con.getD i ' ') = 1 := by
        have h1 := hndcov (con.getD i ' ') hine
        have h2 : 0 < cov.count (con.getD i ' ') := List.count_pos_iff.mpr himem
        omega
      have hfcon : con.filter (fun d => d ≠ con.getD i ' ') =
          con.take i ++ con.drop (i + 1) := filter_unique _ con i hilen rfl hcount_con
      have hlcon : (con.filter (fun d => d ≠ con.getD i ' ')).length + 1 = con.length := by
        have := filter_ne_length (con.getD i ' ') con
        omega
      have hlcov : (cov.filter (fun d => d ≠ con.getD i ' ')).length + 1 = cov.length := by
        have := filter_ne_length (con.getD i ' ') cov
        omega
      have hgdconf : ∀ i2 : Nat, i2 < i →
          (con.filter (fun d => d ≠ con.getD i ' ')).getD i2 ' ' = con.getD i2 ' ' := by
        intro i2 hi2
        rw [hfcon, getD_append_left _ _ i2 (by rw [List.length_take]; omega),
          getD_take con i i2 hi2]
      have hlt : ∀ q ∈ rest, q.1 < a := (List.pairwise_cons.mp hpw).1
      have hfst : ∀ q ∈ rest, ((if q.1 > a then q.1 - 1 else q.1),
          (if q.2 > b then q.2 - 1 else q.2) - 1).1 = q.1 := by
        intro q hq
        show (if q.1 > a then q.1 - 1 else q.1) = q.1
        rw [if_neg (not_lt.mpr (le_of_lt (hlt q hq)))]
      refine ih _ (Tensor.trace t a b) true _ _
        (by rw [List.length_map]; simp only [List.length_cons] at hfuel; omega)
        ?_ ?_ ?_ ?_ ?_ ?_ ?_ ?_
      · exact fun c hc => hconidx c (List.mem_of_mem_filter hc)
      · exact fun c hc => hcovidx c (List.mem_of_mem_filter hc)
      · intro c hne
        exact le_trans (List.Sublist.count_le (List.filter_sublist con) c) (hndcon c hne)
      · intro c hne
        exact le_trans (List.Sublist.count_le (List.filter_sublist cov) c) (hndcov c hne)
      · show ((tensor_type t).1 - 1, (tensor_type t).2 - 1) = _
        rw [htype]
        refine Prod.ext ?_ ?_
        · show con.length - 1 = _
          omega
        · show cov.length - 1 = _
          omega
      · rw [List.pairwise_map]
        refine (List.pairwise_cons.mp hpw).2.imp_of_mem ?_
        intro x y hx hy hxy
        show (if y.1 > a then y.1 - 1 else y.1) < (if x.1 > a then x.1 - 1 else x.1)
        rw [if_neg (not_lt.mpr (le_of_lt (hlt x hx))), if_neg (not_lt.mpr (le_of_lt (hlt y hy)))]
        exact hxy
      · intro q' hq'
        obtain ⟨q, hqrest, hfq⟩ := List.mem_map.mp hq'
        obtain ⟨i2, hq1, hi2len, hi2ne, hi2mem⟩ := hpair q (List.mem_cons_of_mem _ hqrest)
        have hi2i : i2 < i := by
          have h1 := hlt q hqrest
          rw [hq1, ha'] at h1
          exact_mod_cast h1
        have hne20 : con.getD i2 ' ' ≠ con.getD i ' ' := by
          intro he
          have := count_two (con.getD i ' ') con i2 i hi2i hilen he rfl
          omega
        refine ⟨i2, ?_, ?_, ?_, ?_⟩
        · rw [← hfq]
          rw [hfst q hqrest]
          exact hq1
        · omega
        · rw [hgdconf i2 hi2i]
          exact hi2ne
        · rw [hgdconf i2 hi2i]
          exact List.mem_filter.mpr ⟨hi2mem, by simpa using hne20⟩
      · intro c2 hc2 hne2 hcov2
        have hc2con : c2 ∈ con := List.mem_of_mem_filter hc2
        have hc2cov : c2 ∈ cov := List.mem_of_mem_filter hcov2
        have hc2ne0 : c2 ≠ con.getD i ' ' := by
          have := (List.mem_filter.mp hc2).2
          simpa using this
        obtain ⟨q, hqmem, i3, hq1, hgd3⟩ := hcomp c2 hc2con hne2 hc2cov
        rcases List.mem_cons.mp hqmem with rfl | hqrest
        · exfalso
          have hq1' : a = (i3 : Int) := hq1
          have h1 : (i : Int) = (i3 : Int) := by rw [← ha']; exact hq1'
          have h2 : i = i3 := by exact_mod_cast h1
          rw [← h2] at hgd3
          exact hc2ne0 hgd3.symm
        · have hi3i : i3 < i := by
            have h1 := hlt q hqrest
            rw [hq1, ha'] at h1
            exact_mod_cast h1
          refine ⟨_, List.mem_map.mpr ⟨q, hqrest, rfl⟩, i3, ?_, ?_⟩
          · rw [hfst q hqrest]
            exact hq1
          · rw [hgdconf i3 hi3i]
            exact hgd3

theorem tracePhase_spec (t2 : Tensor) (ch : Bool) (con1 cov1 : List Char) (p : Int)
    (hidx1 : ∀ c ∈ con1, isIdxChar c = true) (hidx2 : ∀ c ∈ cov1, isIdxChar c = true)
    (hnd1 : nodupNW con1) (hnd2 : nodupNW cov1)
    (htype : tensor_type t2 = (con1.length, cov1.length)) :
    (∀ c ∈ (applyTracesRev (contractionPairList con1 con1 cov1 p).length t2 ch con1 cov1
      (contractionPairList con1 con1 cov1 p).reverse).2.2.1, isIdxChar c = true) ∧
    (∀ c ∈ (applyTracesRev (contractionPairList con1 con1 cov1 p).length t2 ch con1 cov1
      (contractionPairList con1 con1 cov1 p).reverse).2.2.2, isIdxChar c = true) ∧
    nodupNW (applyTracesRev (contractionPairList con1 con1 cov1 p).length t2 ch con1 cov1
      (contractionPairList con1 con1 cov1 p).reverse).2.2.1 ∧
    nodupNW (applyTracesRev (contractionPairList con1 con1 cov1 p).length t2 ch con1 cov1
      (contractionPairList con1 con1 cov1 p).reverse).2.2.2 ∧
    tensor_type (applyTracesRev (contractionPairList con1 con1 cov1 p).length t2 ch con1 cov1
      (contractionPairList con1 con1 cov1 p).reverse).1 =
      ((applyTracesRev (contractionPairList con1 con1 cov1 p).length t2 ch con1 cov1
        (contractionPairList con1 con1 cov1 p).reverse).2.2.1.length,
       (applyTracesRev (contractionPairList con1 con1 cov1 p).length t2 ch con1 cov1
        (contractionPairList con1 con1 cov1 p).reverse).2.2.2.length) ∧
    (∀ c ∈ (applyTracesRev (contractionPairList con1 con1 cov1 p).length t2 ch con1 cov1
      (contractionPairList con1 con1 cov1 p).reverse).2.2.1, c ≠ '.' →
      c ∉ (applyTracesRev (contractionPairList con1 con1 cov1 p).length t2 ch con1 cov1
        (contractionPairList con1 con1 cov1 p).reverse).2.2.2) := by
  obtain ⟨hpw, hpair, hcomp⟩ := contractionPairList_spec con1 cov1 p hnd1 con1 0 (by simp)
  refine applyTraces_spec _ _ t2 ch con1 cov1 (by rw [List.length_reverse]) hidx1 hidx2
    hnd1 hnd2 htype ?_ ?_ ?_
  · rw [List.pairwise_reverse]
    exact hpw
  · intro q hq
    obtain ⟨i, h1, _, h3, h4, h5⟩ := hpair q (List.mem_reverse.mp hq)
    exact ⟨i, h1, h3, h4, h5⟩
  · intro c hc hne hmem
    obtain ⟨q, hqm, i, h1, h2⟩ := hcomp c hc hne hmem
    exact ⟨q, List.mem_reverse.mpr hqm, i, h1, h2⟩

theorem constructOps_spec (t : Tensor) (con cov : List Char)
    (hmcon : matchP con = true) (hmcov : matchP cov = true)
    (hnd1 : nodupNW (stripGroupPunct con)) (hnd2 : nodupNW (stripGroupPunct cov))
    (hr1 : (stripGroupPunct con).length = (tensor_type t).1)
    (hr2 : (stripGroupPunct cov).length = (tensor_type t).2) :
    (∀ c ∈ (constructOps t con cov).con, isIdxChar c = true) ∧
    (∀ c ∈ (constructOps t con cov).cov, isIdxChar c = true) ∧
    nodupNW (constructOps t con cov).con ∧
    nodupNW (constructOps t con cov).cov ∧
    tensor_type (constructOps t con cov).tensor =
      ((constructOps t con cov).con.length, (constructOps t con cov).cov.length) ∧
    (∀ c ∈ (constructOps t con cov).con, c ≠ '.' → c ∉ (constructOps t con cov).cov) := by
  obtain ⟨hidx1, heq1, htt1⟩ := applyGroupsCon_spec con.length t false con hmcon (le_refl _)
  obtain ⟨hidx2, heq2, htt2⟩ := applyGroupsCov_spec cov.length
    (applyGroupsCon con.length t false con).1 (applyGroupsCon con.length t false con).2.1
    cov hmcov (le_refl _)
  have htype : tensor_type (applyGroupsCov cov.length (applyGroupsCon con.length t false con).1
      (applyGroupsCon con.length t false con).2.1 cov).1 =
      ((applyGroupsCon con.length t false con).2.2.length,
       (applyGroupsCov cov.length (applyGroupsCon con.length t false con).1
         (applyGroupsCon con.length t false con).2.1 cov).2.2.length) := by
    rw [htt2, htt1, heq1, heq2, hr1, hr2]
  have hnd1' : nodupNW (applyGroupsCon con.length t false con).2.2 := by
    rw [heq1]
    exact hnd1
  have hnd2' : nodupNW (applyGroupsCov cov.length (applyGroupsCon con.length t false con).1
      (applyGroupsCon con.length t false con).2.1 cov).2.2 := by
    rw [heq2]
    exact hnd2
  exact tracePhase_spec _ _ _ _ _ hidx1 hidx2 hnd1' hnd2' htype

/-! ### The top-level regexes with the dollar-anchor newline sliver -/

theorem matchPN_of_matchP (s : List Char) (h : matchP s = true) : matchPN s = true := by
  simp [matchPN, h]

theorem matchPN_concat (s : List Char) (h : matchP s = true) :
    matchPN (s ++ ['\n']) = true := by
  simp [matchPN, List.getLast?_concat, List.dropLast_concat, h]

theorem getLast_some_decomp : ∀ (l : List Char) (c : Char), l.getLast? = some c →
    l = l.dropLast ++ [c] := by
  intro l
  induction l with
  | nil => intro c h; cases h
  | cons d rest ih =>
    intro c h
    cases rest with
    | nil =>
      have hd : d = c := Option.some.inj h
      subst hd
      rfl
    | cons e rest2 =>
      have h' : (e :: rest2).getLast? = some c := h
      have hstep : (d :: e :: rest2).dropLast = d :: (e :: rest2).dropLast := rfl
      rw [hstep, List.cons_append, ← ih c h']

theorem pySplit_concat_one (sep c : Char) (hc : c ≠ sep) : ∀ (l a : List Char),
    pySplit sep l = [a] → pySplit sep (l ++ [c]) = [a ++ [c]] := by
  intro l
  induction l with
  | nil =>
    intro a h
    simp only [pySplit, List.cons.injEq, and_true] at h
    subst h
    simp [pySplit, hc]
  | cons d rest ih =>
    intro a h
    rcases hps : pySplit sep rest with _ | ⟨grp, rs⟩
    · exact absurd hps (pySplit_ne_nil sep rest)
    · simp only [pySplit, hps] at h
      by_cases hd : d = sep
      · rw [if_pos hd] at h
        simp at h
      · rw [if_neg hd] at h
        obtain ⟨h1, h2⟩ := List.cons.inj h
        have hone : pySplit sep rest = [grp] := by rw [hps, h2]
        have hrec := ih grp hone
        have hgoal : pySplit sep ((d :: rest) ++ [c]) =
            match pySplit sep (rest ++ [c]) with
            | [] => [[]]
            | grp2 :: rs2 => if d = sep then [] :: grp2 :: rs2 else (d :: grp2) :: rs2 := rfl
        rw [hgoal, hrec]
        show (if d = sep then [[], grp ++ [c]] else [d :: (grp ++ [c])]) = [a ++ [c]]
        rw [if_neg hd, ← h1]
        rfl

theorem pySplit_concat_two (sep c : Char) (hc : c ≠ sep) : ∀ (l a b : List Char),
    pySplit sep l = [a, b] → pySplit sep (l ++ [c]) = [a, b ++ [c]] := by
  intro l
  induction l with
  | nil =>
    intro a b h
    simp only [pySplit] at h
    cases h
  | cons d rest ih =>
    intro a b h
    rcases hps : pySplit sep rest with _ | ⟨grp, rs⟩
    · exact absurd hps (pySplit_ne_nil sep rest)
    · simp only [pySplit, hps] at h
      have hgoal : pySplit sep ((d :: rest) ++ [c]) =
          match pySplit sep (rest ++ [c]) with
          | [] => [[]]
          | grp2 :: rs2 => if d = sep then [] :: grp2 :: rs2 else (d :: grp2) :: rs2 := rfl
      by_cases hd : d = sep
      · rw [if_pos hd] at h
        obtain ⟨h1, h2⟩ := List.cons.inj h
        obtain ⟨h3, h4⟩ := List.cons.inj h2
        have hone : pySplit sep rest = [b] := by rw [hps, h3, h4]
        have hrec := pySplit_concat_one sep c hc rest b hone
        rw [hgoal, hrec]
        show (if d = sep then [[], b ++ [c]] else [d :: (b ++ [c])]) = [a, b ++ [c]]
        rw [if_pos hd, ← h1]
      · rw [if_neg hd] at h
        obtain ⟨h1, h2⟩ := List.cons.inj h
        have htwo : pySplit sep rest = [grp, b] := by
          rw [hps]
          rcases hrs : rs with _ | ⟨x, xs⟩
          · rw [hrs] at h2
            cases h2
          · rw [hrs] at h2
            obtain ⟨h3, h4⟩ := List.cons.inj h2
            rcases hxs : xs with _ | _
            · rw [hxs] at h4
              rw [h3]
            · rw [hxs] at h4
              cases h4
        have hrec := ih grp b htwo
        rw [hgoal, hrec]
        show (if d = sep then [[], grp, b ++ [c]] else [d :: grp, b ++ [c]]) = [a, b ++ [c]]
        rw [if_neg hd, ← h1]

/-- Every variance part produced by a successful split matches the allowed
pattern exactly or up to one trailing newline admitted by the `$` anchor. -/
theorem splitParts_matchPN (l con cov : List Char) (hsp : splitParts l = .ok (con, cov)) :
    matchPN con = true ∧ matchPN cov = true := by
  unfold splitParts at hsp
  by_cases hA : con_then_cov_match l = true
  · rw [if_pos hA] at hsp
    dsimp only at hsp
    have hA2 := hA
    unfold con_then_cov_match at hA2
    rw [Bool.or_eq_true] at hA2
    rcases hA2 with hcore | hslv
    · have hA' := hcore
      unfold con_then_cov_core at hA'
      dsimp only at hA'
      by_cases hhead : l.head? = some '^'
      · rw [if_pos hhead] at hA'
        obtain ⟨r0, hl⟩ : ∃ r0, l = '^' :: r0 := by
          cases l with
          | nil => cases hhead
          | cons c0 r0 =>
            simp only [List.head?] at hhead
            exact ⟨r0, by rw [Option.some.inj hhead]⟩
        rcases hps : pySplit '_' l.tail with _ | ⟨a, _ | ⟨b, _ | ⟨c3, tl⟩⟩⟩
        · exact absurd hps (pySplit_ne_nil '_' l.tail)
        · rw [hps] at hA'
          have hparts : ∀ part ∈ pySplit '_' l.tail, matchP part = true := by
            intro part hp
            rw [hps] at hp
            rcases List.mem_cons.mp hp with rfl | h
            · exact hA'
            · exact absurd h (List.not_mem_nil part)
          have hnc := caret_not_mem_parts '_' l.tail (by decide) hparts
          have hrepl : pyReplace '^' l = l.tail := by
            rw [hl]
            show pyReplace '^' ('^' :: r0) = r0
            rw [pyReplace, List.filter_cons, if_neg (by simp)]
            exact pyReplace_id '^' r0 (by rw [hl] at hnc; exact hnc)
          simp only [hrepl, hps] at hsp
          simp only [Except.ok.injEq, Prod.mk.injEq] at hsp
          obtain ⟨h1, h2⟩ := hsp
          subst h1
          subst h2
          rw [pySplit_single '_' l.tail a hps] at hA'
          exact ⟨matchPN_of_matchP _ hA', matchPN_of_matchP _ rfl⟩
        · rw [hps] at hA'
          rw [Bool.and_eq_true] at hA'
          have hparts : ∀ part ∈ pySplit '_' l.tail, matchP part = true := by
            intro part hp
            rw [hps] at hp
            rcases List.mem_cons.mp hp with rfl | h
            · exact hA'.1
            · rcases List.mem_cons.mp h with rfl | h'
              · exact hA'.2
              · exact absurd h' (List.not_mem_nil part)
          have hnc := caret_not_mem_parts '_' l.tail (by decide) hparts
          have hrepl : pyReplace '^' l = l.tail := by
            rw [hl]
            show pyReplace '^' ('^' :: r0) = r0
            rw [pyReplace, List.filter_cons, if_neg (by simp)]
            exact pyReplace_id '^' r0 (by rw [hl] at hnc; exact hnc)
          simp only [hrepl, hps] at hsp
          simp only [Except.ok.injEq, Prod.mk.injEq] at hsp
          obtain ⟨h1, h2⟩ := hsp
          subst h1
          subst h2
          exact ⟨matchPN_of_matchP _ hA'.1, matchPN_of_matchP _ hA'.2⟩
        · rw [hps] at hA'
          cases hA'
      · rw [if_neg hhead] at hA'
        rcases hps : pySplit '_' l with _ | ⟨a, _ | ⟨b, _ | ⟨c3, tl⟩⟩⟩
        · exact absurd hps (pySplit_ne_nil '_' l)
        · rw [hps] at hA'
          have hparts : ∀ part ∈ pySplit '_' l, matchP part = true := by
            intro part hp
            rw [hps] at hp
            rcases List.mem_cons.mp hp with rfl | h
            · exact hA'
            · exact absurd h (List.not_mem_nil part)
          have hnc := caret_not_mem_parts '_' l (by decide) hparts
          simp only [pyReplace_id '^' l hnc, hps] at hsp
          simp only [Except.ok.injEq, Prod.mk.injEq] at hsp
          obtain ⟨h1, h2⟩ := hsp
          subst h1
          subst h2
          rw [pySplit_single '_' l a hps] at hA'
          exact ⟨matchPN_of_matchP _ hA', matchPN_of_matchP _ rfl⟩
        · rw [hps] at hA'
          rw [Bool.and_eq_true] at hA'
          have hparts : ∀ part ∈ pySplit '_' l, matchP part = true := by
            intro part hp
            rw [hps] at hp
            rcases List.mem_cons.mp hp with rfl | h
            · exact hA'.1
            · rcases List.mem_cons.mp h with rfl | h'
              · exact hA'.2
              · exact absurd h' (List.not_mem_nil part)
          have hnc := caret_not_mem_parts '_' l (by decide) hparts
          simp only [pyReplace_id '^' l hnc, hps] at hsp
          simp only [Except.ok.injEq, Prod.mk.injEq] at hsp
          obtain ⟨h1, h2⟩ := hsp
          subst h1
          subst h2
          exact ⟨matchPN_of_matchP _ hA'.1, matchPN_of_matchP _ hA'.2⟩
        · rw [hps] at hA'
          cases hA'
    · rw [Bool.and_eq_true] at hslv
      obtain ⟨hlastd, hcore0⟩ := hslv
      have hlast : l.getLast? = some '\n' := of_decide_eq_true hlastd
      have hdec : l = l.dropLast ++ ['\n'] := getLast_some_decomp l '\n' hlast
      generalize hl0 : l.dropLast = l0 at hdec hcore0
      unfold con_then_cov_core at hcore0
      dsimp only at hcore0
      by_cases hhead : l0.head? = some '^'
      · rw [if_pos hhead] at hcore0
        obtain ⟨r0, hl0eq⟩ : ∃ r0, l0 = '^' :: r0 := by
          cases l0 with
          | nil => cases hhead
          | cons c0 r0 =>
            simp only [List.head?] at hhead
            exact ⟨r0, by rw [Option.some.inj hhead]⟩
        have htl : l0.tail = r0 := by
          rw [hl0eq]
          rfl
        rw [htl] at hcore0
        have hleq : l = '^' :: (r0 ++ ['\n']) := by rw [hdec, hl0eq]; rfl
        rcases hps : pySplit '_' r0 with _ | ⟨a0, _ | ⟨b0, _ | ⟨c3, tl⟩⟩⟩
        · exact absurd hps (pySplit_ne_nil '_' r0)
        · rw [hps] at hcore0
          have hparts : ∀ part ∈ pySplit '_' r0, matchP part = true := by
            intro part hp
            rw [hps] at hp
            rcases List.mem_cons.mp hp with rfl | h
            · exact hcore0
            · exact absurd h (List.not_mem_nil part)
          have hnc := caret_not_mem_parts '_' r0 (by decide) hparts
          have hrepl : pyReplace '^' l = r0 ++ ['\n'] := by
            rw [hleq]
            show pyReplace '^' ('^' :: (r0 ++ ['\n'])) = r0 ++ ['\n']
            rw [pyReplace, List.filter_cons, if_neg (by simp)]
            refine pyReplace_id '^' (r0 ++ ['\n']) ?_
            intro hm
            rcases List.mem_append.mp hm with h | h
            · exact hnc h
            · simp at h
          have ha0 : a0 = r0 := pySplit_single '_' r0 a0 hps
          have hps2 : pySplit '_' (r0 ++ ['\n']) = [r0 ++ ['\n']] := by
            refine pySplit_concat_one '_' '\n' (by decide) r0 r0 ?_
            rw [hps, ha0]
          simp only [hrepl, hps2] at hsp
          simp only [Except.ok.injEq, Prod.mk.injEq] at hsp
          obtain ⟨h1, h2⟩ := hsp
          subst h1
          subst h2
          refine ⟨matchPN_concat r0 ?_, matchPN_of_matchP _ rfl⟩
          rw [← ha0]
          exact hcore0
        · rw [hps] at hcore0
          rw [Bool.and_eq_true] at hcore0
          have hparts : ∀ part ∈ pySplit '_' r0, matchP part = true := by
            intro part hp
            rw [hps] at hp
            rcases List.mem_cons.mp hp with rfl | h
            · exact hcore0.1
            · rcases List.mem_cons.mp h with rfl | h'
              · exact hcore0.2
              · exact absurd h' (List.not_mem_nil part)
          have hnc := caret_not_mem_parts '_' r0 (by decide) hparts
          have hrepl : pyReplace '^' l = r0 ++ ['\n'] := by
            rw [hleq]
            show pyReplace '^' ('^' :: (r0 ++ ['\n'])) = r0 ++ ['\n']
            rw [pyReplace, List.filter_cons, if_neg (by simp)]
            refine pyReplace_id '^' (r0 ++ ['\n']) ?_
            intro hm
            rcases List.mem_append.mp hm with h | h
            · exact hnc h
            · simp at h
          have hps2 : pySplit '_' (r0 ++ ['\n']) = [a0, b0 ++ ['\n']] :=
            pySplit_concat_two '_' '\n' (by decide) r0 a0 b0 hps
          simp only [hrepl, hps2] at hsp
          simp only [Except.ok.injEq, Prod.mk.injEq] at hsp
          obtain ⟨h1, h2⟩ := hsp
          subst h1
          subst h2
          exact ⟨matchPN_of_matchP _ hcore0.1, matchPN_concat b0 hcore0.2⟩
        · rw [hps] at hcore0
          cases hcore0
      · rw [if_neg hhead] at hcore0
        rcases hps : pySplit '_' l0 with _ | ⟨a0, _ | ⟨b0, _ | ⟨c3, tl⟩⟩⟩
        · exact absurd hps (pySplit_ne_nil '_' l0)
        · rw [hps] at hcore0
          have hparts : ∀ part ∈ pySplit '_' l0, matchP part = true := by
            intro part hp
            rw [hps] at hp
            rcases List.mem_cons.mp hp with rfl | h
            · exact hcore0
            · exact absurd h (List.not_mem_nil part)
          have hnc := caret_not_mem_parts '_' l0 (by decide) hparts
          have hrepl : pyReplace '^' l = l := by
            rw [hdec]
            refine pyReplace_id '^' _ ?_
            intro hm
            rcases List.mem_append.mp hm with h | h
            · exact hnc h
            · simp at h
          have ha0 : a0 = l0 := pySplit_single '_' l0 a0 hps
          have hps2 : pySplit '_' (l0 ++ ['\n']) = [l0 ++ ['\n']] := by
            refine pySplit_concat_one '_' '\n' (by decide) l0 l0 ?_
            rw [hps, ha0]
          rw [hrepl, hdec] at hsp
          simp only [hps2] at hsp
          simp only [Except.ok.injEq, Prod.mk.injEq] at hsp
          obtain ⟨h1, h2⟩ := hsp
          subst h1
          subst h2
          refine ⟨matchPN_concat l0 ?_, matchPN_of_matchP _ rfl⟩
          rw [← ha0]
          exact hcore0
        · rw [hps] at hcore0
          rw [Bool.and_eq_true] at hcore0
          have hparts : ∀ part ∈ pySplit '_' l0, matchP part = true := by
            intro part hp
            rw [hps] at hp
            rcases List.mem_cons.mp hp with rfl | h
            · exact hcore0.1
            · rcases List.mem_cons.mp h with rfl | h'
              · exact hcore0.2
              · exact absurd h' (List.not_mem_nil part)
          have hnc := caret_not_mem_parts '_' l0 (by decide) hparts
          have hrepl : pyReplace '^' l = l := by
            rw [hdec]
            refine pyReplace_id '^' _ ?_
            intro hm
            rcases List.mem_append.mp hm with h | h
            · exact hnc h
            · simp at h
          have hps2 : pySplit '_' (l0 ++ ['\n']) = [a0, b0 ++ ['\n']] :=
            pySplit_concat_two '_' '\n' (by decide) l0 a0 b0 hps
          rw [hrepl, hdec] at hsp
          simp only [hps2] at hsp
          simp only [Except.ok.injEq, Prod.mk.injEq] at hsp
          obtain ⟨h1, h2⟩ := hsp
          subst h1
          subst h2
          exact ⟨matchPN_of_matchP _ hcore0.1, matchPN_concat b0 hcore0.2⟩
        · rw [hps] at hcore0
          cases hcore0
  · rw [if_neg hA] at hsp
    by_cases hB : cov_then_con_match l = true
    · rw [if_pos hB] at hsp
      dsimp only at hsp
      have hB2 := hB
      unfold cov_then_con_match at hB2
      rw [Bool.or_eq_true] at hB2
      rcases hB2 with hcore | hslv
      · have hB' := hcore
        unfold cov_then_con_core at hB'
        by_cases hhead : l.head? = some '_'
        · rw [if_pos hhead] at hB'
          rcases hps : pySplit '^' l.tail with _ | ⟨a, _ | ⟨b, _ | ⟨c3, tl⟩⟩⟩
          · exact absurd hps (pySplit_ne_nil '^' l.tail)
          · rw [hps] at hB'
            simp only [hps] at hsp
            simp only [Except.ok.injEq, Prod.mk.injEq] at hsp
            obtain ⟨h1, h2⟩ := hsp
            subst h1
            subst h2
            rw [pySplit_single '^' l.tail a hps] at hB'
            exact ⟨matchPN_of_matchP _ rfl, matchPN_of_matchP _ hB'⟩
          · rw [hps] at hB'
            rw [Bool.and_eq_true] at hB'
            simp only [hps] at hsp
            simp only [Except.ok.injEq, Prod.mk.injEq] at hsp
            obtain ⟨h1, h2⟩ := hsp
            subst h1
            subst h2
            exact ⟨matchPN_of_matchP _ hB'.2, matchPN_of_matchP _ hB'.1⟩
          · rw [hps] at hB'
            cases hB'
        · rw [if_neg hhead] at hB'
          cases hB'
      · rw [Bool.and_eq_true] at hslv
        obtain ⟨hlastd, hcore0⟩ := hslv
        have hlast : l.getLast? = some '\n' := of_decide_eq_true hlastd
        have hdec : l = l.dropLast ++ ['\n'] := getLast_some_decomp l '\n' hlast
        generalize hl0 : l.dropLast = l0 at hdec hcore0
        unfold cov_then_con_core at hcore0
        have hhead : l0.head? = some '_' := by
          by_contra hh
          rw [if_neg hh] at hcore0
          cases hcore0
        rw [if_pos hhead] at hcore0
        obtain ⟨t0, hl0eq⟩ : ∃ t0, l0 = '_' :: t0 := by
          cases l0 with
          | nil => cases hhead
          | cons c0 t0 =>
            simp only [List.head?] at hhead
            exact ⟨t0, by rw [Option.some.inj hhead]⟩
        have htl : l0.tail = t0 := by
          rw [hl0eq]
          rfl
        rw [htl] at hcore0
        have hltail : l.tail = t0 ++ ['\n'] := by rw [hdec, hl0eq]; rfl
        rcases hps : pySplit '^' t0 with _ | ⟨a0, _ | ⟨b0, _ | ⟨c3, tl⟩⟩⟩
        · exact absurd hps (pySplit_ne_nil '^' t0)
        · rw [hps] at hcore0
          have ha0 : a0 = t0 := pySplit_single '^' t0 a0 hps
          have hps2 : pySplit '^' (t0 ++ ['\n']) = [t0 ++ ['\n']] := by
            refine pySplit_concat_one '^' '\n' (by decide) t0 t0 ?_
            rw [hps, ha0]
          simp only [hltail, hps2] at hsp
          simp only [Except.ok.injEq, Prod.mk.injEq] at hsp
          obtain ⟨h1, h2⟩ := hsp
          subst h1
          subst h2
          refine ⟨matchPN_of_matchP _ rfl, matchPN_concat t0 ?_⟩
          rw [← ha0]
          exact hcore0
        · rw [hps] at hcore0
          rw [Bool.and_eq_true] at hcore0
          have hps2 : pySplit '^' (t0 ++ ['\n']) = [a0, b0 ++ ['\n']] :=
            pySplit_concat_two '^' '\n' (by decide) t0 a0 b0 hps
          simp only [hltail, hps2] at hsp
          simp only [Except.ok.injEq, Prod.mk.injEq] at hsp
          obtain ⟨h1, h2⟩ := hsp
          subst h1
          subst h2
          exact ⟨matchPN_concat b0 hcore0.2, matchPN_of_matchP _ hcore0.1⟩
        · rw [hps] at hcore0
          cases hcore0
    · rw [if_neg hB] at hsp
      cases hsp

/-! ### Group lists of a variance part -/

theorem stripGroupPunct_id_inert (l : List Char)
    (h : ∀ c ∈ l, isIdxChar c = true ∨ c = '\n') : stripGroupPunct l = l := by
  refine List.filter_eq_self.mpr (fun a ha => ?_)
  rcases h a ha with hida | rfl
  · have h1 : a ≠ '(' := by rintro rfl; exact absurd hida (by decide)
    have h2 : a ≠ ')' := by rintro rfl; exact absurd hida (by decide)
    have h3 : a ≠ '[' := by rintro rfl; exact absurd hida (by decide)
    have h4 : a ≠ ']' := by rintro rfl; exact absurd hida (by decide)
    simp [h1, h2, h3, h4]
  · decide

theorem findGroup_shape : ∀ (pre : List Char), (∀ c ∈ pre, isIdxChar c = true) →
    ∀ (op : Char), (op = '(' ∨ op = '[') →
    ∀ (body : List Char), (∀ c ∈ body, isIdxChar c = true) →
    ∀ (cl : Char), (cl = ')' ∨ cl = ']') → ∀ (suf : List Char) (k : Nat),
    findGroup (pre ++ op :: body ++ cl :: suf) k =
      some (k + pre.length, k + pre.length + body.length + 1, op) := by
  intro pre
  induction pre with
  | nil =>
    intro _ op hop body hbody cl hcl suf k
    simp only [List.nil_append, findGroup, List.append_eq]
    rw [if_pos (by rcases hop with rfl | rfl <;> simp)]
    rw [scanBody_concat body hbody cl hcl suf (k + 1)]
    simp only [List.length_nil, Nat.add_zero]
    rw [show k + 1 + body.length = k + body.length + 1 from by omega]
  | cons d rest ih =>
    intro hpre op hop body hbody cl hcl suf k
    have hd := hpre d (List.mem_cons_self d rest)
    have h1 : d ≠ '(' := by rintro rfl; exact absurd hd (by decide)
    have h2 : d ≠ '[' := by rintro rfl; exact absurd hd (by decide)
    simp only [List.cons_append, findGroup, List.append_eq]
    rw [if_neg (by simp [h1, h2])]
    rw [ih (fun c hc => hpre c (List.mem_cons_of_mem d hc)) op hop body hbody cl hcl suf (k + 1)]
    simp only [List.length_cons]
    rw [show k + 1 + rest.length = k + (rest.length + 1) from by omega]

theorem removeDelims_shape (pre body suf : List Char) (op cl : Char) :
    removeDelims (pre ++ op :: body ++ cl :: suf) pre.length (pre.length + body.length + 1) =
      pre ++ body ++ suf := by
  have e1 : ((pre ++ op :: body) ++ cl :: suf).take pre.length = pre := by
    rw [List.append_assoc]
    exact List.take_left' rfl
  have e2 : ((pre ++ op :: body) ++ cl :: suf).drop (pre.length + 1) = body ++ cl :: suf := by
    rw [show (pre ++ op :: body) ++ cl :: suf = (pre ++ [op]) ++ (body ++ cl :: suf) from
      by simp]
    exact List.drop_left' (by simp)
  have e3 : (pre.length + body.length + 1) - (pre.length + 1) = body.length := by omega
  have e4 : ((pre ++ op :: body) ++ cl :: suf).drop (pre.length + body.length + 1 + 1) =
      suf := by
    rw [show (pre ++ op :: body) ++ cl :: suf = ((pre ++ op :: body) ++ [cl]) ++ suf from
      by simp]
    refine List.drop_left' ?_
    simp only [List.length_append, List.length_cons, List.length_nil]
    omega
  unfold removeDelims pySlice
  rw [e1, e2, e3, e4, List.take_left' rfl]

theorem stripGroupPunct_shape (pre body suf : List Char) (op cl : Char)
    (hop : op = '(' ∨ op = ')' ∨ op = '[' ∨ op = ']')
    (hcl : cl = '(' ∨ cl = ')' ∨ cl = '[' ∨ cl = ']') :
    stripGroupPunct (pre ++ op :: body ++ cl :: suf) =
      stripGroupPunct (pre ++ body ++ suf) := by
  rw [stripGroupPunct_append (pre ++ body) suf, stripGroupPunct_append pre body,
    stripGroupPunct_append (pre ++ op :: body) (cl :: suf),
    stripGroupPunct_append pre (op :: body),
    stripGroupPunct_delim_cons op body hop, stripGroupPunct_delim_cons cl suf hcl]

theorem groupDecompN (s : List Char) (i j : Nat) (op : Char)
    (hm : matchPN s = true) (hfg : findGroup s 0 = some (i, j, op)) :
    ∃ pre body suf cl,
      s = pre ++ op :: body ++ cl :: suf ∧
      (∀ c ∈ pre, isIdxChar c = true) ∧
      (∀ c ∈ body, isIdxChar c = true) ∧
      ((op = '(' ∧ cl = ')') ∨ (op = '[' ∧ cl = ']')) ∧
      matchPN suf = true ∧
      i = pre.length ∧ j = i + body.length + 1 := by
  unfold matchPN at hm
  rw [Bool.or_eq_true] at hm
  rcases hm with hm | hm
  · obtain ⟨pre, body, suf, cl, heq, hpre, hbody, hcl, _, hsuf, hi, hj⟩ :=
      findGroup_match s hm 0 i j op hfg
    exact ⟨pre, body, suf, cl, heq, hpre, hbody, hcl, matchPN_of_matchP _ hsuf,
      by omega, hj⟩
  · rw [Bool.and_eq_true] at hm
    obtain ⟨hlastd, hm0⟩ := hm
    have hlast : s.getLast? = some '\n' := of_decide_eq_true hlastd
    have hdec : s = s.dropLast ++ ['\n'] := getLast_some_decomp s '\n' hlast
    generalize hl0 : s.dropLast = s0 at hdec hm0
    cases hfg0 : findGroup s0 0 with
    | none =>
      exfalso
      have hidx := matchP_noGroup s0 0 hm0 hfg0
      have hnone : findGroup s 0 = none := by
        rw [hdec]
        refine findGroup_none _ ?_ 0
        intro c hc
        rcases List.mem_append.mp hc with h | h
        · have hi2 := hidx c h
          exact ⟨by rintro rfl; exact absurd hi2 (by decide),
                 by rintro rfl; exact absurd hi2 (by decide)⟩
        · simp only [List.mem_singleton] at h
          subst h
          exact ⟨by decide, by decide⟩
      rw [hnone] at hfg
      cases hfg
    | some v =>
      obtain ⟨i0, j0, op0⟩ := v
      obtain ⟨pre, body, suf0, cl, heq, hpre, hbody, hcl, _, hsuf, hi0, hj0⟩ :=
        findGroup_match s0 hm0 0 i0 j0 op0 hfg0
      have hop : op0 = '(' ∨ op0 = '[' := by
        rcases hcl with ⟨h, _⟩ | ⟨h, _⟩
        · exact Or.inl h
        · exact Or.inr h
      have hclr : cl = ')' ∨ cl = ']' := by
        rcases hcl with ⟨_, h⟩ | ⟨_, h⟩
        · exact Or.inl h
        · exact Or.inr h
      have hfg' : findGroup s 0 =
          some (pre.length, pre.length + body.length + 1, op0) := by
        rw [hdec, heq, show (pre ++ op0 :: body ++ cl :: suf0) ++ ['\n'] =
          pre ++ op0 :: body ++ cl :: (suf0 ++ ['\n']) from by simp]
        have h0 := findGroup_shape pre hpre op0 hop body hbody cl hclr (suf0 ++ ['\n']) 0
        rw [h0]
        simp only [Nat.zero_add]
      rw [hfg'] at hfg
      have h3 := Option.some.inj hfg
      obtain ⟨hieq, hjeq, hopeq⟩ : pre.length = i ∧ pre.length + body.length + 1 = j ∧
          op0 = op := by simpa [Prod.ext_iff] using h3
      refine ⟨pre, body, suf0 ++ ['\n'], cl, ?_, hpre, hbody, ?_, ?_, by omega, by omega⟩
      · rw [hdec, heq, ← hopeq]
        simp
      · rw [← hopeq]
        exact hcl
      · exact matchPN_concat suf0 hsuf

theorem noGroupN (s : List Char) (hm : matchPN s = true) (hfg : findGroup s 0 = none) :
    ∀ c ∈ s, isIdxChar c = true ∨ c = '\n' := by
  unfold matchPN at hm
  rw [Bool.or_eq_true] at hm
  rcases hm with hm | hm
  · intro c hc
    exact Or.inl (matchP_noGroup s 0 hm hfg c hc)
  · rw [Bool.and_eq_true] at hm
    obtain ⟨hlastd, hm0⟩ := hm
    have hlast : s.getLast? = some '\n' := of_decide_eq_true hlastd
    have hdec : s = s.dropLast ++ ['\n'] := getLast_some_decomp s '\n' hlast
    generalize hl0 : s.dropLast = s0 at hdec hm0
    cases hfg0 : findGroup s0 0 with
    | some v =>
      exfalso
      obtain ⟨i0, j0, op0⟩ := v
      obtain ⟨pre, body, suf0, cl, heq, hpre, hbody, hcl, _, hsuf, hi0, hj0⟩ :=
        findGroup_match s0 hm0 0 i0 j0 op0 hfg0
      have hop : op0 = '(' ∨ op0 = '[' := by
        rcases hcl with ⟨h, _⟩ | ⟨h, _⟩
        · exact Or.inl h
        · exact Or.inr h
      have hclr : cl = ')' ∨ cl = ']' := by
        rcases hcl with ⟨_, h⟩ | ⟨_, h⟩
        · exact Or.inl h
        · exact Or.inr h
      have hfg' : findGroup s 0 =
          some (0 + pre.length, 0 + pre.length + body.length + 1, op0) := by
        rw [hdec, heq, show (pre ++ op0 :: body ++ cl :: suf0) ++ ['\n'] =
          pre ++ op0 :: body ++ cl :: (suf0 ++ ['\n']) from by simp]
        exact findGroup_shape pre hpre op0 hop body hbody cl hclr (suf0 ++ ['\n']) 0
      rw [hfg] at hfg'
      cases hfg'
    | none =>
      have hidx := matchP_noGroup s0 0 hm0 hfg0
      intro c hc
      rw [hdec] at hc
      rcases List.mem_append.mp hc with h | h
      · exact Or.inl (hidx c h)
      · right
        simpa using h

theorem specGroupsAux_inert : ∀ (s : List Char) (p : Nat),
    (∀ c ∈ s, isIdxChar c = true ∨ c = '\n') → specGroupsAux none s p = [] := by
  intro s
  induction s with
  | nil => intro p _; rfl
  | cons d rest ih =>
    intro p h
    have hd := h d (List.mem_cons_self d rest)
    have hd1 : d ≠ '(' := by
      rcases hd with hd | rfl
      · rintro rfl; exact absurd hd (by decide)
      · decide
    have hd2 : d ≠ '[' := by
      rcases hd with hd | rfl
      · rintro rfl; exact absurd hd (by decide)
      · decide
    have h1 : (d = '(' || d = '[') ≠ true := by simp [hd1, hd2]
    simp only [specGroupsAux]
    rw [if_neg h1]
    exact ih (p + 1) (fun c hc => h c (List.mem_cons_of_mem d hc))

theorem specGroupsAux_skip : ∀ (pre : List Char), (∀ c ∈ pre, isIdxChar c = true) →
    ∀ (l : List Char) (p : Nat),
    specGroupsAux none (pre ++ l) p = specGroupsAux none l (p + pre.length) := by
  intro pre
  induction pre with
  | nil =>
    intro _ l p
    simp
  | cons d rest ih =>
    intro hpre l p
    have hd := hpre d (List.mem_cons_self d rest)
    have hd1 : d ≠ '(' := by rintro rfl; exact absurd hd (by decide)
    have hd2 : d ≠ '[' := by rintro rfl; exact absurd hd (by decide)
    have h1 : (d = '(' || d = '[') ≠ true := by simp [hd1, hd2]
    simp only [List.cons_append, specGroupsAux, List.append_eq]
    rw [if_neg h1]
    rw [ih (fun c hc => hpre c (List.mem_cons_of_mem d hc)) l (p + 1)]
    simp only [List.length_cons]
    rw [show p + 1 + rest.length = p + (rest.length + 1) from by omega]

theorem specGroupsAux_body (op : Char) : ∀ (body : List Char),
    (∀ c ∈ body, isIdxChar c = true) →
    ∀ (cl : Char), isIdxChar cl = false → ∀ (suf : List Char) (st n p : Nat),
    specGroupsAux (some (op, st, n)) (body ++ cl :: suf) p =
      (op, st, n + body.length) :: specGroupsAux none suf (p + body.length) := by
  intro body
  induction body with
  | nil =>
    intro _ cl hcl suf st n p
    simp only [List.nil_append, specGroupsAux]
    rw [if_neg (by simp [hcl])]
    simp
  | cons d rest ih =>
    intro hbody cl hcl suf st n p
    have hd := hbody d (List.mem_cons_self d rest)
    simp only [List.cons_append, specGroupsAux, List.append_eq]
    rw [if_pos hd]
    rw [ih (fun c hc => hbody c (List.mem_cons_of_mem d hc)) cl hcl suf st (n + 1) (p + 1)]
    simp only [List.length_cons]
    rw [show n + 1 + rest.length = n + (rest.length + 1) from by omega,
      show p + 1 + rest.length = p + (rest.length + 1) from by omega]

theorem specGroupsAux_open (op : Char) (hop : op = '(' ∨ op = '[')
    (body : List Char) (hbody : ∀ c ∈ body, isIdxChar c = true)
    (cl : Char) (hcl : isIdxChar cl = false) (suf : List Char) (p : Nat) :
    specGroupsAux none (op :: (body ++ cl :: suf)) p =
      (op, p, body.length) :: specGroupsAux none suf (p + body.length) := by
  simp only [specGroupsAux, List.append_eq]
  rw [if_pos (by rcases hop with rfl | rfl <;> simp)]
  rw [specGroupsAux_body op body hbody cl hcl suf p 0 p]
  simp only [Nat.zero_add]

theorem applyGroupListCon_type : ∀ (gs : List (Char × Nat × Nat)) (t : Tensor),
    tensor_type (applyGroupListCon t gs) = tensor_type t := by
  intro gs
  induction gs with
  | nil => intro t; rfl
  | cons g rest ih =>
    intro t
    show tensor_type (applyGroupListCon (if g.1 = '(' then _ else _) rest) = _
    rw [ih]
    by_cases h : g.1 = '('
    · rw [if_pos h]
      rfl
    · rw [if_neg h]
      rfl

theorem applyGroupListCov_type : ∀ (gs : List (Char × Nat × Nat)) (t : Tensor),
    tensor_type (applyGroupListCov t gs) = tensor_type t := by
  intro gs
  induction gs with
  | nil => intro t; rfl
  | cons g rest ih =>
    intro t
    show tensor_type (applyGroupListCov (if g.1 = '(' then _ else _) rest) = _
    rw [ih]
    by_cases h : g.1 = '('
    · rw [if_pos h]
      rfl
    · rw [if_neg h]
      rfl

theorem applyGroupsCon_fold : ∀ (fuel : Nat) (t : Tensor) (ch : Bool) (s : List Char),
    matchPN s = true → s.length ≤ fuel →
    applyGroupsCon fuel t ch s =
      (applyGroupListCon t (specGroupsAux none s 0),
       ch || !decide (specGroupsAux none s 0 = []),
       stripGroupPunct s) := by
  intro fuel
  induction fuel with
  | zero =>
    intro t ch s _ hlen
    have hs : s = [] := List.length_eq_zero.mp (by omega)
    subst hs
    simp [applyGroupsCon, specGroupsAux, applyGroupListCon, stripGroupPunct]
  | succ n ih =>
    intro t ch s hm hlen
    cases hfg : findGroup s 0 with
    | none =>
      have hinert := noGroupN s hm hfg
      have hg0 : specGroupsAux none s 0 = [] := specGroupsAux_inert s 0 hinert
      rw [applyGroupsCon_id (n + 1) t ch s hfg, hg0, stripGroupPunct_id_inert s hinert]
      simp [applyGroupListCon]
    | some v =>
      obtain ⟨i, j, op⟩ := v
      obtain ⟨pre, body, suf, cl, heq, hpre, hbody, hcl, hsufN, hi, hj⟩ :=
        groupDecompN s i j op hm hfg
      have hop : op = '(' ∨ op = '[' := by
        rcases hcl with ⟨h, _⟩ | ⟨h, _⟩
        · exact Or.inl h
        · exact Or.inr h
      have hclr : cl = ')' ∨ cl = ']' := by
        rcases hcl with ⟨_, h⟩ | ⟨_, h⟩
        · exact Or.inl h
        · exact Or.inr h
      have hop4 : op = '(' ∨ op = ')' ∨ op = '[' ∨ op = ']' := by
        rcases hop with h | h
        · exact Or.inl h
        · exact Or.inr (Or.inr (Or.inl h))
      have hcl4 : cl = '(' ∨ cl = ')' ∨ cl = '[' ∨ cl = ']' := by
        rcases hclr with h | h
        · exact Or.inr (Or.inl h)
        · exact Or.inr (Or.inr (Or.inr h))
      have hi' : i = pre.length := by omega
      have hj' : j = pre.length + body.length + 1 := by omega
      have hrd : removeDelims s i j = pre ++ body ++ suf := by
        rw [heq, hi', hj']
        exact removeDelims_shape pre body suf op cl
      have hsg : specGroupsAux none s 0 = (op, pre.length, body.length) ::
          specGroupsAux none suf (pre.length + body.length) := by
        rw [heq, show pre ++ op :: body ++ cl :: suf =
          pre ++ (op :: (body ++ cl :: suf)) from by simp]
        rw [specGroupsAux_skip pre hpre (op :: (body ++ cl :: suf)) 0]
        rw [specGroupsAux_open op hop body hbody cl
          (by rcases hclr with rfl | rfl <;> decide) suf (0 + pre.length)]
        simp only [Nat.zero_add]
      have hgs2 : specGroupsAux none (pre ++ body ++ suf) 0 =
          specGroupsAux none suf (pre.length + body.length) := by
        have hpb : ∀ c ∈ pre ++ body, isIdxChar c = true := by
          intro c hc
          rcases List.mem_append.mp hc with h | h
          · exact hpre c h
          · exact hbody c h
        rw [specGroupsAux_skip (pre ++ body) hpb suf 0]
        simp only [List.length_append, Nat.zero_add]
      have hmN : matchPN (pre ++ body ++ suf) = true := by
        unfold matchPN at hsufN ⊢
        rw [Bool.or_eq_true] at hsufN ⊢
        rcases hsufN with h | h
        · left
          show matchPAux .top _ = true
          rw [List.append_assoc, matchP_idx_append pre _ hpre,
            matchP_idx_append body suf hbody]
          exact h
        · right
          rw [Bool.and_eq_true] at h ⊢
          obtain ⟨hld, hmm⟩ := h
          have hl := of_decide_eq_true hld
          have hdecs : suf = suf.dropLast ++ ['\n'] := getLast_some_decomp suf '\n' hl
          constructor
          · rw [hdecs, show pre ++ body ++ (suf.dropLast ++ ['\n']) =
              (pre ++ body ++ suf.dropLast) ++ ['\n'] from by simp]
            rw [List.getLast?_concat]
            simp
          · rw [hdecs, show pre ++ body ++ (suf.dropLast ++ ['\n']) =
              (pre ++ body ++ suf.dropLast) ++ ['\n'] from by simp]
            rw [List.dropLast_concat]
            show matchPAux .top _ = true
            rw [List.append_assoc, matchP_idx_append pre _ hpre,
              matchP_idx_append body _ hbody]
            exact hmm
      have hlen' : (pre ++ body ++ suf).length ≤ n := by
        have h1 : s.length = pre.length + body.length + suf.length + 2 := by
          rw [heq]
          simp only [List.length_append, List.length_cons]
          omega
        simp only [List.length_append]
        omega
      have hstrip : stripGroupPunct s = stripGroupPunct (pre ++ body ++ suf) := by
        rw [heq]
        exact stripGroupPunct_shape pre body suf op cl hop4 hcl4
      have harg : ((pre.length + body.length + 1 : Nat) : Int) - 1 =
          (pre.length : Int) + (body.length : Int) := by
        push_cast
        ring
      simp only [applyGroupsCon, hfg]
      rw [hrd]
      rw [ih (if op = '(' then Tensor.symmetrize t (pyRange (i : Int) ((j : Int) - 1))
          else Tensor.antisymmetrize t (pyRange (i : Int) ((j : Int) - 1))) true
          (pre ++ body ++ suf) hmN hlen']
      rw [hgs2, hsg, hstrip]
      have hfold : applyGroupListCon t ((op, pre.length, body.length) ::
          specGroupsAux none suf (pre.length + body.length)) =
          applyGroupListCon
            (if op = '(' then Tensor.symmetrize t (pyRange (i : Int) ((j : Int) - 1))
             else Tensor.antisymmetrize t (pyRange (i : Int) ((j : Int) - 1)))
            (specGroupsAux none suf (pre.length + body.length)) := by
        show applyGroupListCon
          (if op = '(' then
            Tensor.symmetrize t (pyRange ((pre.length : Nat) : Int)
              ((pre.length : Int) + (body.length : Int)))
           else
            Tensor.antisymmetrize t (pyRange ((pre.length : Nat) : Int)
              ((pre.length : Int) + (body.length : Int))))
          (specGroupsAux none suf (pre.length + body.length)) = _
        rw [hi', hj', harg]
      rw [hfold]
      simp

theorem applyGroupsCov_fold : ∀ (fuel : Nat) (t : Tensor) (ch : Bool) (s : List Char),
    matchPN s = true → s.length ≤ fuel →
    applyGroupsCov fuel t ch s =
      (applyGroupListCov t (specGroupsAux none s 0),
       ch || !decide (specGroupsAux none s 0 = []),
       stripGroupPunct s) := by
  intro fuel
  induction fuel with
  | zero =>
    intro t ch s _ hlen
    have hs : s = [] := List.length_eq_zero.mp (by omega)
    subst hs
    simp [applyGroupsCov, specGroupsAux, applyGroupListCov, stripGroupPunct]
  | succ n ih =>
    intro t ch s hm hlen
    cases hfg : findGroup s 0 with
    | none =>
      have hinert := noGroupN s hm hfg
      have hg0 : specGroupsAux none s 0 = [] := specGroupsAux_inert s 0 hinert
      rw [applyGroupsCov_id (n + 1) t ch s hfg, hg0, stripGroupPunct_id_inert s hinert]
      simp [applyGroupListCov]
    | some v =>
      obtain ⟨i, j, op⟩ := v
      obtain ⟨pre, body, suf, cl, heq, hpre, hbody, hcl, hsufN, hi, hj⟩ :=
        groupDecompN s i j op hm hfg
      have hop : op = '(' ∨ op = '[' := by
        rcases hcl with ⟨h, _⟩ | ⟨h, _⟩
        · exact Or.inl h
        · exact Or.inr h
      have hclr : cl = ')' ∨ cl = ']' := by
        rcases hcl with ⟨_, h⟩ | ⟨_, h⟩
        · exact Or.inl h
        · exact Or.inr h
      have hop4 : op = '(' ∨ op = ')' ∨ op = '[' ∨ op = ']' := by
        rcases hop with h | h
        · exact Or.inl h
        · exact Or.inr (Or.inr (Or.inl h))
      have hcl4 : cl = '(' ∨ cl = ')' ∨ cl = '[' ∨ cl = ']' := by
        rcases hclr with h | h
        · exact Or.inr (Or.inl h)
        · exact Or.inr (Or.inr (Or.inr h))
      have hi' : i = pre.length := by omega
      have hj' : j = pre.length + body.length + 1 := by omega
      have hrd : removeDelims s i j = pre ++ body ++ suf := by
        rw [heq, hi', hj']
        exact removeDelims_shape pre body suf op cl
      have hsg : specGroupsAux none s 0 = (op, pre.length, body.length) ::
          specGroupsAux none suf (pre.length + body.length) := by
        rw [heq, show pre ++ op :: body ++ cl :: suf =
          pre ++ (op :: (body ++ cl :: suf)) from by simp]
        rw [specGroupsAux_skip pre hpre (op :: (body ++ cl :: suf)) 0]
        rw [specGroupsAux_open op hop body hbody cl
          (by rcases hclr with rfl | rfl <;> decide) suf (0 + pre.length)]
        simp only [Nat.zero_add]
      have hgs2 : specGroupsAux none (pre ++ body ++ suf) 0 =
          specGroupsAux none suf (pre.length + body.length) := by
        have hpb : ∀ c ∈ pre ++ body, isIdxChar c = true := by
          intro c hc
          rcases List.mem_append.mp hc with h | h
          · exact hpre c h
          · exact hbody c h
        rw [specGroupsAux_skip (pre ++ body) hpb suf 0]
        simp only [List.length_append, Nat.zero_add]
      have hmN : matchPN (pre ++ body ++ suf) = true := by
        unfold matchPN at hsufN ⊢
        rw [Bool.or_eq_true] at hsufN ⊢
        rcases hsufN with h | h
        · left
          show matchPAux .top _ = true
          rw [List.append_assoc, matchP_idx_append pre _ hpre,
            matchP_idx_append body suf hbody]
          exact h
        · right
          rw [Bool.and_eq_true] at h ⊢
          obtain ⟨hld, hmm⟩ := h
          have hl := of_decide_eq_true hld
          have hdecs : suf = suf.dropLast ++ ['\n'] := getLast_some_decomp suf '\n' hl
          constructor
          · rw [hdecs, show pre ++ body ++ (suf.dropLast ++ ['\n']) =
              (pre ++ body ++ suf.dropLast) ++ ['\n'] from by simp]
            rw [List.getLast?_concat]
            simp
          · rw [hdecs, show pre ++ body ++ (suf.dropLast ++ ['\n']) =
              (pre ++ body ++ suf.dropLast) ++ ['\n'] from by simp]
            rw [List.dropLast_concat]
            show matchPAux .top _ = true
            rw [List.append_assoc, matchP_idx_append pre _ hpre,
              matchP_idx_append body _ hbody]
            exact hmm
      have hlen' : (pre ++ body ++ suf).length ≤ n := by
        have h1 : s.length = pre.length + body.length + suf.length + 2 := by
          rw [heq]
          simp only [List.length_append, List.length_cons]
          omega
        simp only [List.length_append]
        omega
      have hstrip : stripGroupPunct s = stripGroupPunct (pre ++ body ++ suf) := by
        rw [heq]
        exact stripGroupPunct_shape pre body suf op cl hop4 hcl4
      have harg : ((tensor_type t).1 : Int) + ((pre.length + body.length + 1 : Nat) : Int)
          - 1 = ((tensor_type t).1 : Int) + (pre.length : Int) + (body.length : Int) := by
        push_cast
        ring
      simp only [applyGroupsCov, hfg]
      rw [hrd]
      rw [ih (if op = '(' then
            Tensor.symmetrize t (pyRange (((tensor_type t).1 : Int) + (i : Int))
              (((tensor_type t).1 : Int) + (j : Int) - 1))
          else Tensor.antisymmetrize t (pyRange (((tensor_type t).1 : Int) + (i : Int))
              (((tensor_type t).1 : Int) + (j : Int) - 1))) true
          (pre ++ body ++ suf) hmN hlen']
      rw [hgs2, hsg, hstrip]
      have hfold : applyGroupListCov t ((op, pre.length, body.length) ::
          specGroupsAux none suf (pre.length + body.length)) =
          applyGroupListCov
            (if op = '(' then
              Tensor.symmetrize t (pyRange (((tensor_type t).1 : Int) + (i : Int))
                (((tensor_type t).1 : Int) + (j : Int) - 1))
             else Tensor.antisymmetrize t (pyRange (((tensor_type t).1 : Int) + (i : Int))
                (((tensor_type t).1 : Int) + (j : Int) - 1)))
            (specGroupsAux none suf (pre.length + body.length)) := by
        show applyGroupListCov
          (if op = '(' then
            Tensor.symmetrize t (pyRange (((tensor_type t).1 : Int) + ((pre.length : Nat) : Int))
              (((tensor_type t).1 : Int) + (pre.length : Int) + (body.length : Int)))
           else
            Tensor.antisymmetrize t (pyRange (((tensor_type t).1 : Int) + ((pre.length : Nat) : Int))
              (((tensor_type t).1 : Int) + (pre.length : Int) + (body.length : Int))))
          (specGroupsAux none suf (pre.length + body.length)) = _
        rw [hi', hj', harg]
      rw [hfold]
      simp

/-! ### The self-contraction loop as the specified trace fold -/

theorem applyTracesRev_tensor : ∀ (fuel : Nat) (pairs : List (Int × Int)) (t : Tensor)
    (ch : Bool) (con cov : List Char),
    (applyTracesRev fuel t ch con cov pairs).1 = specTraceLoop fuel pairs t := by
  intro fuel
  induction fuel with
  | zero => intro pairs t ch con cov; rfl
  | succ n ih =>
    intro pairs t ch con cov
    cases pairs with
    | nil => rfl
    | cons ab rest =>
      obtain ⟨a, b⟩ := ab
      simp only [applyTracesRev, specTraceLoop]
      exact ih _ _ _ _ _

theorem contractionPairList_eq : ∀ (rem fullCon cov : List Char) (p : Int),
    contractionPairList rem fullCon cov p =
      (rem.filter (fun c => c ≠ '.' && decide (c ∈ cov))).map
        (fun c => ((pyIndex fullCon c : Int), p + (pyIndex cov c : Int))) := by
  intro rem
  induction rem with
  | nil => intro fullCon cov p; rfl
  | cons c rest ih =>
    intro fullCon cov p
    by_cases h : c ≠ '.' ∧ c ∈ cov
    · simp only [contractionPairList, if_pos h, List.filter_cons]
      rw [if_pos (by simp [h.1, h.2])]
      simp only [List.map_cons]
      rw [ih]
    · simp only [contractionPairList, if_neg h, List.filter_cons]
      rw [if_neg (by simpa using h)]
      exact ih fullCon cov p

theorem getD_append_right (pre suf : List Char) (i : Nat) (h : pre.length ≤ i) :
    (pre ++ suf).getD i ' ' = suf.getD (i - pre.length) ' ' := by
  simp [List.getD_eq_getElem?_getD, List.getElem?_append_right h]

theorem pyIndex_getD (c : Char) : ∀ (l : List Char), c ∈ l →
    pyIndex l c < l.length ∧ l.getD (pyIndex l c) ' ' = c := by
  intro l
  induction l with
  | nil => intro h; exact absurd h (List.not_mem_nil c)
  | cons d rest ih =>
    intro h
    by_cases hd : d = c
    · subst hd
      simp [pyIndex]
    · simp only [pyIndex, if_neg hd]
      have hmem : c ∈ rest := by
        rcases List.mem_cons.mp h with rfl | h2
        · exact absurd rfl hd
        · exact h2
      obtain ⟨h1, h2⟩ := ih hmem
      refine ⟨by simp only [List.length_cons]; omega, ?_⟩
      exact h2

theorem getD_map_pair (f : Int × Int → Int × Int) (l : List (Int × Int)) (k : Nat)
    (hk : k < l.length) : (l.map f).getD k (0, 0) = f (l.getD k (0, 0)) := by
  simp [List.getD_eq_getElem?_getD, List.getElem?_map, List.getElem?_eq_getElem hk]

theorem filter_notmem_cons (e : Char) (ls : List Char) : ∀ (con : List Char),
    (con.filter (fun d => d ≠ e)).filter (fun c => decide (c ∉ ls)) =
      con.filter (fun c => decide (c ∉ e :: ls)) := by
  intro con
  induction con with
  | nil => rfl
  | cons d rest ih =>
    by_cases h1 : d = e
    · subst h1
      rw [List.filter_cons, if_neg (by simp), List.filter_cons, if_neg (by simp)]
      exact ih
    · by_cases h2 : d ∈ ls
      · rw [List.filter_cons, if_pos (by simp [h1]), List.filter_cons,
          if_neg (by simp [h2]), List.filter_cons, if_neg (by simp [h2])]
        exact ih
      · rw [List.filter_cons, if_pos (by simp [h1]), List.filter_cons,
          if_pos (by simp [h2]), List.filter_cons, if_pos (by simp [h1, h2])]
        rw [ih]

theorem nodupNW_of_dupFails (l : List Char) (h : dupFails l = false) : nodupNW l := by
  intro c hne
  by_contra hgt
  push_neg at hgt
  have hmem : c ∈ l := List.count_pos_iff.mp (by omega)
  have h2 := (dupFails_iff l).mpr ⟨c, hmem, hne, by omega⟩
  rw [h] at h2
  cases h2

theorem construct_ok_cases (t : Tensor) (s : String) (con cov : List Char) (st : TWIState)
    (hsp : splitParts (stripBraces s.data) = .ok (con, cov))
    (hok : construct t s = .ok st) :
    dupFails (stripGroupPunct con) = false ∧ dupFails (stripGroupPunct cov) = false ∧
    (stripGroupPunct con).length = (tensor_type t).1 ∧
    (stripGroupPunct cov).length = (tensor_type t).2 ∧
    st = constructOps t con cov := by
  unfold construct at hok
  rw [hsp] at hok
  dsimp only at hok
  by_cases hd1 : dupFails (stripGroupPunct con) = true
  · rw [if_pos hd1] at hok
    cases hok
  · rw [if_neg hd1] at hok
    by_cases hd2 : dupFails (stripGroupPunct cov) = true
    · rw [if_pos hd2] at hok
      cases hok
    · rw [if_neg hd2] at hok
      by_cases hr1 : (stripGroupPunct con).length ≠ (tensor_type t).1
      · rw [if_pos hr1] at hok
        cases hok
      · rw [if_neg hr1] at hok
        by_cases hr2 : (stripGroupPunct cov).length ≠ (tensor_type t).2
        · rw [if_pos hr2] at hok
          cases hok
        · rw [if_neg hr2] at hok
          push_neg at hr1 hr2
          simp only [Bool.not_eq_true] at hd1 hd2
          exact ⟨hd1, hd2, hr1, hr2, (Except.ok.inj hok).symm⟩

theorem applyTracesRev_strings : ∀ (fuel : Nat) (pairs : List (Int × Int))
    (letters : List Char) (t : Tensor) (ch : Bool) (con cov : List Char),
    pairs.length ≤ fuel →
    letters.length = pairs.length →
    nodupNW con →
    (∀ c ∈ letters, c ≠ '.') →
    letters.Nodup →
    (∀ k, k < pairs.length → ∃ i : Nat, (pairs.getD k (0, 0)).1 = (i : Int) ∧
      i < con.length ∧ con.getD i ' ' = letters.getD k ' ') →
    (applyTracesRev fuel t ch con cov pairs).2.2.1 =
      con.filter (fun c => decide (c ∉ letters)) ∧
    (applyTracesRev fuel t ch con cov pairs).2.2.2 =
      cov.filter (fun c => decide (c ∉ letters)) := by
  intro fuel
  induction fuel with
  | zero =>
    intro pairs letters t ch con cov hfuel hlen hnd hdot hnodup hpair
    have hpairs : pairs = [] := List.length_eq_zero.mp (by omega)
    subst hpairs
    have hlet : letters = [] := List.length_eq_zero.mp (by simpa using hlen)
    subst hlet
    exact ⟨(List.filter_eq_self.mpr (fun a _ => by simp)).symm,
           (List.filter_eq_self.mpr (fun a _ => by simp)).symm⟩
  | succ n ih =>
    intro pairs letters t ch con cov hfuel hlen hnd hdot hnodup hpair
    cases pairs with
    | nil =>
      have hlet : letters = [] := List.length_eq_zero.mp (by simpa using hlen)
      subst hlet
      exact ⟨(List.filter_eq_self.mpr (fun a _ => by simp)).symm,
             (List.filter_eq_self.mpr (fun a _ => by simp)).symm⟩
    | cons ab rest =>
      obtain ⟨a, b⟩ := ab
      cases letters with
      | nil => simp at hlen
      | cons e ls =>
        obtain ⟨i, ha, hilen, hgd⟩ := hpair 0 (by simp)
        have ha' : a = (i : Int) := by simpa using ha
        have hgd' : con.getD i ' ' = e := by simpa using hgd
        have hene : e ≠ '.' := hdot e (List.mem_cons_self e ls)
        have hstep : applyTracesRev (n + 1) t ch con cov ((a, b) :: rest) =
            applyTracesRev n (Tensor.trace t a b) true
              (con.filter (fun d => d ≠ pyCharAt con a))
              (cov.filter (fun d => d ≠ pyCharAt con a))
              (rest.map (fun q => ((if q.1 > a then q.1 - 1 else q.1),
                (if q.2 > b then q.2 - 1 else q.2) - 1))) := by
          simp only [applyTracesRev]
        have hca : pyCharAt con a = e := by
          rw [ha']
          unfold pyCharAt
          dsimp only
          rw [if_neg (not_lt.mpr (Int.natCast_nonneg i)), Int.toNat_natCast]
          exact hgd'
        rw [hstep, hca]
        have hemem : e ∈ con := by
          rw [← hgd']
          exact getD_mem con i hilen
        have hcount : con.count e = 1 := by
          have h1 := hnd e hene
          have h2 : 0 < con.count e := List.count_pos_iff.mpr hemem
          omega
        have hfcon : con.filter (fun d => d ≠ e) = con.take i ++ con.drop (i + 1) :=
          filter_unique e con i hilen hgd' hcount
        have hnd' : nodupNW (con.filter (fun d => d ≠ e)) := by
          intro c hne
          exact le_trans (List.Sublist.count_le (List.filter_sublist con) c) (hnd c hne)
        have hlnew : (con.filter (fun d => d ≠ e)).length + 1 = con.length := by
          have := filter_ne_length e con
          omega
        have hnodup' : ls.Nodup := (List.nodup_cons.mp hnodup).2
        have henotin : e ∉ ls := (List.nodup_cons.mp hnodup).1
        have hdot' : ∀ c ∈ ls, c ≠ '.' := fun c hc => hdot c (List.mem_cons_of_mem e hc)
        have hlen' : ls.length = rest.length := by simpa using hlen
        have htk : (con.take i).length = i := by
          rw [List.length_take]
          omega
        have hpair' : ∀ k, k < (rest.map (fun q => ((if q.1 > a then q.1 - 1 else q.1),
            (if q.2 > b then q.2 - 1 else q.2) - 1))).length →
            ∃ i2 : Nat, ((rest.map (fun q => ((if q.1 > a then q.1 - 1 else q.1),
              (if q.2 > b then q.2 - 1 else q.2) - 1))).getD k (0, 0)).1 = (i2 : Int) ∧
              i2 < (con.filter (fun d => d ≠ e)).length ∧
              (con.filter (fun d => d ≠ e)).getD i2 ' ' = ls.getD k ' ' := by
          intro k hk
          rw [List.length_map] at hk
          obtain ⟨i2, hq1, hi2len, hgd2⟩ := hpair (k + 1) (by
            simp only [List.length_cons]
            omega)
          have hq1' : (rest.getD k (0, 0)).1 = (i2 : Int) := by simpa using hq1
          have he2 : con.getD i2 ' ' = ls.getD k ' ' := by simpa using hgd2
          have hkls : k < ls.length := by
            rw [hlen']
            exact hk
          have hlk_mem : ls.getD k ' ' ∈ ls := getD_mem ls k hkls
          have hne_e : ls.getD k ' ' ≠ e := fun hEq => henotin (hEq ▸ hlk_mem)
          have hi2ne : i2 ≠ i := by
            intro hEq
            rw [hEq, hgd'] at he2
            exact hne_e he2.symm
          rw [getD_map_pair _ rest k hk]
          by_cases hcmp : i < i2
          · refine ⟨i2 - 1, ?_, by omega, ?_⟩
            · show (if (rest.getD k (0, 0)).1 > a then (rest.getD k (0, 0)).1 - 1
                else (rest.getD k (0, 0)).1) = ((i2 - 1 : Nat) : Int)
              rw [hq1', ha', if_pos (by exact_mod_cast hcmp)]
              omega
            · rw [hfcon, getD_append_right (con.take i) (con.drop (i + 1)) (i2 - 1)
                (by rw [htk]; omega), getD_drop, htk,
                show i + 1 + (i2 - 1 - i) = i2 from by omega]
              exact he2
          · have hlt : i2 < i := by omega
            refine ⟨i2, ?_, by omega, ?_⟩
            · show (if (rest.getD k (0, 0)).1 > a then (rest.getD k (0, 0)).1 - 1
                else (rest.getD k (0, 0)).1) = (i2 : Int)
              rw [hq1', ha', if_neg (by
                push_neg
                exact_mod_cast le_of_lt hlt)]
            · rw [hfcon, getD_append_left _ _ i2 (by rw [htk]; exact hlt),
                getD_take con i i2 hlt]
              exact he2
        obtain ⟨ih1, ih2⟩ := ih (rest.map (fun q => ((if q.1 > a then q.1 - 1 else q.1),
            (if q.2 > b then q.2 - 1 else q.2) - 1))) ls (Tensor.trace t a b) true
          (con.filter (fun d => d ≠ e)) (cov.filter (fun d => d ≠ e))
          (by
            rw [List.length_map]
            simp only [List.length_cons] at hfuel
            omega)
          (by rw [List.length_map]; exact hlen')
          hnd' hdot' hnodup' hpair'
        constructor
        · rw [ih1]
          exact filter_notmem_cons e ls con
        · rw [ih2]
          exact filter_notmem_cons e ls cov

theorem getD_map_char (f : Char → Int × Int) (l : List Char) (k : Nat)
    (hk : k < l.length) : (l.map f).getD k (0, 0) = f (l.getD k ' ') := by
  simp [List.getD_eq_getElem?_getD, List.getElem?_map, List.getElem?_eq_getElem hk]

theorem sharedLetters_nodup (con cov : List Char) (hnd : nodupNW con) :
    (sharedLetters con cov).Nodup := by
  rw [List.nodup_iff_count_le_one]
  intro a
  by_cases ha : a = '.'
  · subst ha
    have hnm : ('.' : Char) ∉ sharedLetters con cov := by
      intro hmem
      have h2 := (List.mem_filter.mp hmem).2
      simp at h2
    rw [List.count_eq_zero.mpr hnm]
    omega
  · exact le_trans (List.Sublist.count_le (List.filter_sublist con) a) (hnd a ha)

theorem sharedLetters_mem (con cov : List Char) (c : Char)
    (h : c ∈ sharedLetters con cov) : c ∈ con ∧ c ≠ '.' ∧ c ∈ cov := by
  obtain ⟨h1, h2⟩ := List.mem_filter.mp h
  rw [Bool.and_eq_true] at h2
  exact ⟨h1, of_decide_eq_true h2.1, of_decide_eq_true h2.2⟩

theorem construct_trace_spec (t : Tensor) (s : String) (con cov : List Char) (st : TWIState)
    (hsp : splitParts (stripBraces s.data) = .ok (con, cov))
    (hok : construct t s = .ok st) :
    st.tensor = specTraceLoop
        (selfPairs (stripGroupPunct con) (stripGroupPunct cov) ((tensor_type t).1 : Int)).length
        (selfPairs (stripGroupPunct con) (stripGroupPunct cov)
          ((tensor_type t).1 : Int)).reverse
        (applyGroupsCov cov.length (applyGroupsCon con.length t false con).1
          (applyGroupsCon con.length t false con).2.1 cov).1 ∧
    st.con = (stripGroupPunct con).filter (fun c => decide (c ∉
        sharedLetters (stripGroupPunct con) (stripGroupPunct cov))) ∧
    st.cov = (stripGroupPunct cov).filter (fun c => decide (c ∉
        sharedLetters (stripGroupPunct con) (stripGroupPunct cov))) := by
  obtain ⟨hd1, hd2, hr1, hr2, hst⟩ := construct_ok_cases t s con cov st hsp hok
  obtain ⟨hmcon, hmcov⟩ := splitParts_matchPN _ con cov hsp
  subst hst
  have hg1 := applyGroupsCon_fold con.length t false con hmcon (le_refl _)
  have hg2 := applyGroupsCov_fold cov.length (applyGroupsCon con.length t false con).1
      (applyGroupsCon con.length t false con).2.1 cov hmcov (le_refl _)
  have hcon1 : (applyGroupsCon con.length t false con).2.2 = stripGroupPunct con := by
    rw [hg1]
  have hcov1 : (applyGroupsCov cov.length (applyGroupsCon con.length t false con).1
      (applyGroupsCon con.length t false con).2.1 cov).2.2 = stripGroupPunct cov := by
    rw [hg2]
  have htype1 : tensor_type (applyGroupsCon con.length t false con).1 = tensor_type t := by
    rw [hg1]
    exact applyGroupListCon_type _ t
  have htype2 : tensor_type (applyGroupsCov cov.length
      (applyGroupsCon con.length t false con).1
      (applyGroupsCon con.length t false con).2.1 cov).1 = tensor_type t := by
    rw [hg2]
    exact (applyGroupListCov_type _ _).trans htype1
  have hpairs_eq : contractionPairList (stripGroupPunct con) (stripGroupPunct con)
      (stripGroupPunct cov) ((tensor_type t).1 : Int) =
      selfPairs (stripGroupPunct con) (stripGroupPunct cov) ((tensor_type t).1 : Int) := by
    rw [contractionPairList_eq]
    rfl
  have hndcon : nodupNW (stripGroupPunct con) := nodupNW_of_dupFails _ hd1
  refine ⟨?_, ?_, ?_⟩
  · show (let r1 := applyGroupsCon con.length t false con
      let r2 := applyGroupsCov cov.length r1.1 r1.2.1 cov
      let con1 := r1.2.2
      let cov1 := r2.2.2
      let pairs := contractionPairList con1 con1 cov1 ((tensor_type r2.1).1 : Int)
      let r3 := applyTracesRev pairs.length r2.1 r2.2.1 con1 cov1 pairs.reverse
      (⟨r3.1, r3.2.1, r3.2.2.1, r3.2.2.2⟩ : TWIState)).tensor = _
    dsimp only
    rw [applyTracesRev_tensor, hcon1, hcov1, htype2, hpairs_eq]
  · show (let r1 := applyGroupsCon con.length t false con
      let r2 := applyGroupsCov cov.length r1.1 r1.2.1 cov
      let con1 := r1.2.2
      let cov1 := r2.2.2
      let pairs := contractionPairList con1 con1 cov1 ((tensor_type r2.1).1 : Int)
      let r3 := applyTracesRev pairs.length r2.1 r2.2.1 con1 cov1 pairs.reverse
      (⟨r3.1, r3.2.1, r3.2.2.1, r3.2.2.2⟩ : TWIState)).con = _
    dsimp only
    rw [hcon1, hcov1, htype2, hpairs_eq]
    have hrev : (selfPairs (stripGroupPunct con) (stripGroupPunct cov)
        ((tensor_type t).1 : Int)).reverse =
        (sharedLetters (stripGroupPunct con) (stripGroupPunct cov)).reverse.map
          (fun c => ((pyIndex (stripGroupPunct con) c : Int),
            ((tensor_type t).1 : Int) + (pyIndex (stripGroupPunct cov) c : Int))) := by
      show ((sharedLetters (stripGroupPunct con) (stripGroupPunct cov)).map
        (fun c => ((pyIndex (stripGroupPunct con) c : Int),
          ((tensor_type t).1 : Int) + (pyIndex (stripGroupPunct cov) c : Int)))).reverse = _
      rw [List.map_reverse]
    rw [hrev]
    obtain ⟨hs1, _⟩ := applyTracesRev_strings
      (selfPairs (stripGroupPunct con) (stripGroupPunct cov) ((tensor_type t).1 : Int)).length
      ((sharedLetters (stripGroupPunct con) (stripGroupPunct cov)).reverse.map
        (fun c => ((pyIndex (stripGroupPunct con) c : Int),
          ((tensor_type t).1 : Int) + (pyIndex (stripGroupPunct cov) c : Int))))
      (sharedLetters (stripGroupPunct con) (stripGroupPunct cov)).reverse
      (applyGroupsCov cov.length (applyGroupsCon con.length t false con).1
        (applyGroupsCon con.length t false con).2.1 cov).1
      (applyGroupsCov cov.length (applyGroupsCon con.length t false con).1
        (applyGroupsCon con.length t false con).2.1 cov).2.1
      (stripGroupPunct con) (stripGroupPunct cov)
      (by
        rw [List.length_map, List.length_reverse]
        show (sharedLetters _ _).length ≤ ((sharedLetters _ _).map _).length
        rw [List.length_map])
      (by rw [List.length_map])
      hndcon
      (by
        intro c hc
        rw [List.mem_reverse] at hc
        exact (sharedLetters_mem _ _ c hc).2.1)
      (by
        rw [List.nodup_reverse]
        exact sharedLetters_nodup _ _ hndcon)
      (by
        intro k hk
        rw [List.length_map] at hk
        rw [getD_map_char _ _ k hk]
        have hkrev : k < (sharedLetters (stripGroupPunct con)
            (stripGroupPunct cov)).reverse.length := hk
        have hmem : ((sharedLetters (stripGroupPunct con)
            (stripGroupPunct cov)).reverse.getD k ' ') ∈
            (sharedLetters (stripGroupPunct con) (stripGroupPunct cov)).reverse :=
          getD_mem _ k hkrev
        rw [List.mem_reverse] at hmem
        obtain ⟨hmc, _, _⟩ := sharedLetters_mem _ _ _ hmem
        obtain ⟨hlt, hgd⟩ := pyIndex_getD _ _ hmc
        exact ⟨pyIndex (stripGroupPunct con)
          ((sharedLetters (stripGroupPunct con) (stripGroupPunct cov)).reverse.getD k ' '),
          rfl, hlt, hgd⟩)
    rw [hs1]
    refine List.filter_congr ?_
    intro a _
    simp [List.mem_reverse]
  · show (let r1 := applyGroupsCon con.length t false con
      let r2 := applyGroupsCov cov.length r1.1 r1.2.1 cov
      let con1 := r1.2.2
      let cov1 := r2.2.2
      let pairs := contractionPairList con1 con1 cov1 ((tensor_type r2.1).1 : Int)
      let r3 := applyTracesRev pairs.length r2.1 r2.2.1 con1 cov1 pairs.reverse
      (⟨r3.1, r3.2.1, r3.2.2.1, r3.2.2.2⟩ : TWIState)).cov = _
    dsimp only
    rw [hcon1, hcov1, htype2, hpairs_eq]
    have hrev : (selfPairs (stripGroupPunct con) (stripGroupPunct cov)
        ((tensor_type t).1 : Int)).reverse =
        (sharedLetters (stripGroupPunct con) (stripGroupPunct cov)).reverse.map
          (fun c => ((pyIndex (stripGroupPunct con) c : Int),
            ((tensor_type t).1 : Int) + (pyIndex (stripGroupPunct cov) c : Int))) := by
      show ((sharedLetters (stripGroupPunct con) (stripGroupPunct cov)).map
        (fun c => ((pyIndex (stripGroupPunct con) c : Int),
          ((tensor_type t).1 : Int) + (pyIndex (stripGroupPunct cov) c : Int)))).reverse = _
      rw [List.map_reverse]
    rw [hrev]
    obtain ⟨_, hs2⟩ := applyTracesRev_strings
      (selfPairs (stripGroupPunct con) (stripGroupPunct cov) ((tensor_type t).1 : Int)).length
      ((sharedLetters (stripGroupPunct con) (stripGroupPunct cov)).reverse.map
        (fun c => ((pyIndex (stripGroupPunct con) c : Int),
          ((tensor_type t).1 : Int) + (pyIndex (stripGroupPunct cov) c : Int))))
      (sharedLetters (stripGroupPunct con) (stripGroupPunct cov)).reverse
      (applyGroupsCov cov.length (applyGroupsCon con.length t false con).1
        (applyGroupsCon con.length t false con).2.1 cov).1
      (applyGroupsCov cov.length (applyGroupsCon con.length t false con).1
        (applyGroupsCon con.length t false con).2.1 cov).2.1
      (stripGroupPunct con) (stripGroupPunct cov)
      (by
        rw [List.length_map, List.length_reverse]
        show (sharedLetters _ _).length ≤ ((sharedLetters _ _).map _).length
        rw [List.length_map])
      (by rw [List.length_map])
      hndcon
      (by
        intro c hc
        rw [List.mem_reverse] at hc
        exact (sharedLetters_mem _ _ c hc).2.1)
      (by
        rw [List.nodup_reverse]
        exact sharedLetters_nodup _ _ hndcon)
      (by
        intro k hk
        rw [List.length_map] at hk
        rw [getD_map_char _ _ k hk]
        have hkrev : k < (sharedLetters (stripGroupPunct con)
            (stripGroupPunct cov)).reverse.length := hk
        have hmem : ((sharedLetters (stripGroupPunct con)
            (stripGroupPunct cov)).reverse.getD k ' ') ∈
            (sharedLetters (stripGroupPunct con) (stripGroupPunct cov)).reverse :=
          getD_mem _ k hkrev
        rw [List.mem_reverse] at hmem
        obtain ⟨hmc, _, _⟩ := sharedLetters_mem _ _ _ hmem
        obtain ⟨hlt, hgd⟩ := pyIndex_getD _ _ hmc
        exact ⟨pyIndex (stripGroupPunct con)
          ((sharedLetters (stripGroupPunct con) (stripGroupPunct cov)).reverse.getD k ' '),
          rfl, hlt, hgd⟩)
    rw [hs2]
    refine List.filter_congr ?_
    intro a _
    simp [List.mem_reverse]

/-! ### C1 and C2 -/

/-- C1: construction applies each parenthesis group as `symmetrize` and each
bracket group as `antisymmetrize` over exactly the contiguous zero-based axis
range the group's letters occupy, processing groups leftmost-first within
each part, with covariant axis positions offset by the current tensor's
contravariant rank.  Stated as: the contravariant group loop on any accepted
part equals the left fold of the part's group list; likewise the covariant
loop with the rank offset; every string the parser accepts yields parts
satisfying that hypothesis; for every accepted string the constructed tensor
is the trace stage applied to exactly those group operations (contravariant
part first); and in particular the (2,2) docstring instances and the (4,0)
two-group instance hold. -/
theorem C1_group_application :
    (∀ (t : Tensor) (ch : Bool) (con : List Char), matchPN con = true →
      applyGroupsCon con.length t ch con =
        (applyGroupListCon t (specGroups con),
         ch || !decide (specGroups con = []), stripGroupPunct con)) ∧
    (∀ (t : Tensor) (ch : Bool) (cov : List Char), matchPN cov = true →
      applyGroupsCov cov.length t ch cov =
        (applyGroupListCov t (specGroups cov),
         ch || !decide (specGroups cov = []), stripGroupPunct cov)) ∧
    (∀ (l con cov : List Char), splitParts l = .ok (con, cov) →
      matchPN con = true ∧ matchPN cov = true) ∧
    (∀ (t : Tensor) (s : String) (con cov : List Char) (st : TWIState),
      splitParts (stripBraces s.data) = .ok (con, cov) → construct t s = .ok st →
      st.tensor = specTraceLoop
        (selfPairs (stripGroupPunct con) (stripGroupPunct cov)
          ((tensor_type t).1 : Int)).length
        (selfPairs (stripGroupPunct con) (stripGroupPunct cov)
          ((tensor_type t).1 : Int)).reverse
        (applyGroupListCov (applyGroupListCon t (specGroups con)) (specGroups cov))) ∧
    (∀ t : Tensor, tensor_type t = (2, 2) →
      construct t "(ij)_kl" =
        .ok ⟨.symmetrize t [0, 1], true, ['i', 'j'], ['k', 'l']⟩ ∧
      construct t "ij_[kl]" =
        .ok ⟨.antisymmetrize t [2, 3], true, ['i', 'j'], ['k', 'l']⟩) ∧
    (∀ t : Tensor, tensor_type t = (4, 0) →
      construct t "(ab)(cd)" =
        .ok ⟨.symmetrize (.symmetrize t [0, 1]) [2, 3], true,
          ['a', 'b', 'c', 'd'], []⟩) := by
  refine ⟨?_, ?_, ?_, ?_, ?_, ?_⟩
  · intro t ch con hm
    exact applyGroupsCon_fold con.length t ch con hm (le_refl _)
  · intro t ch cov hm
    exact applyGroupsCov_fold cov.length t ch cov hm (le_refl _)
  · intro l con cov hsp
    exact splitParts_matchPN l con cov hsp
  · intro t s con cov st hsp hok
    obtain ⟨hmcon, hmcov⟩ := splitParts_matchPN _ con cov hsp
    have h1 := (construct_trace_spec t s con cov st hsp hok).1
    rw [h1]
    have hg1 := applyGroupsCon_fold con.length t false con hmcon (le_refl _)
    have hg2 := applyGroupsCov_fold cov.length (applyGroupsCon con.length t false con).1
        (applyGroupsCon con.length t false con).2.1 cov hmcov (le_refl _)
    rw [hg2, hg1]
    rfl
  · intro t h
    constructor
    · rw [construct_eq_ops t _ ['(', 'i', 'j', ')'] ['k', 'l'] (by decide) (by decide)
        (by decide) (by rw [h]; rfl) (by rw [h]; rfl)]
      rfl
    · rw [construct_eq_ops t _ ['i', 'j'] ['[', 'k', 'l', ']'] (by decide) (by decide)
        (by decide) (by rw [h]; rfl) (by rw [h]; rfl)]
      have e : constructOps t ['i', 'j'] ['[', 'k', 'l', ']'] =
          ⟨.antisymmetrize t (pyRange (((tensor_type t).1 : Int) + 0)
            (((tensor_type t).1 : Int) + 3 - 1)), true, ['i', 'j'], ['k', 'l']⟩ := rfl
      rw [e, h]
      rfl
  · intro t h
    rw [construct_eq_ops t _ ['(', 'a', 'b', ')', '(', 'c', 'd', ')'] [] (by decide)
      (by decide) (by decide) (by rw [h]; rfl) (by rw [h]; rfl)]
    rfl

/-- Witness for C1: the loop equality at a concrete part, the parser bridge
at a concrete accepted string, and the concrete construction instances. -/
theorem C1_group_application_witness :
    applyGroupsCon (['(', 'i', 'j', ')'] : List Char).length (.atom 0 2 0) false
        ['(', 'i', 'j', ')'] =
      (applyGroupListCon (.atom 0 2 0) (specGroups ['(', 'i', 'j', ')']),
       false || !decide (specGroups ['(', 'i', 'j', ')'] = []),
       stripGroupPunct ['(', 'i', 'j', ')']) ∧
    (matchPN ['a', 'b'] = true ∧ matchPN ['c'] = true) ∧
    construct (.atom 0 2 2) "(ij)_kl" =
      .ok ⟨.symmetrize (.atom 0 2 2) [0, 1], true, ['i', 'j'], ['k', 'l']⟩ ∧
    construct (.atom 0 2 2) "ij_[kl]" =
      .ok ⟨.antisymmetrize (.atom 0 2 2) [2, 3], true, ['i', 'j'], ['k', 'l']⟩ ∧
    construct (.atom 0 4 0) "(ab)(cd)" =
      .ok ⟨.symmetrize (.symmetrize (.atom 0 4 0) [0, 1]) [2, 3], true,
        ['a', 'b', 'c', 'd'], []⟩ :=
  ⟨C1_group_application.1 (.atom 0 2 0) false ['(', 'i', 'j', ')'] (by decide),
   C1_group_application.2.2.1 (stripBraces "ab_c".data) ['a', 'b'] ['c'] (by decide),
   (C1_group_application.2.2.2.2.1 (.atom 0 2 2) (by decide)).1,
   (C1_group_application.2.2.2.2.1 (.atom 0 2 2) (by decide)).2,
   C1_group_application.2.2.2.2.2 (.atom 0 4 0) (by decide)⟩

/-- C2: a non-wildcard letter occurring in both variance parts triggers
`trace` over (its position in the contravariant string, contravariant rank
plus its position in the covariant string).  Stated as: the pair-collection
loop yields exactly one such pair per shared letter in identification order;
the self-contraction loop is the fold that traces the pending pairs
most-recently-identified first with the stated renumbering (first components
greater than the removed contravariant position decrement; second components
greater than the removed covariant position decrement, and decrement once
more unconditionally); for every accepted string the constructed state is
that fold applied after the group stage, with every shared letter removed
from both stored parts; a single shared pair reduces to one direct `trace`;
and the concrete docstring instances hold. -/
theorem C2_self_contraction :
    (∀ (rem fullCon cov : List Char) (p : Int),
      contractionPairList rem fullCon cov p =
        (rem.filter (fun c => c ≠ '.' && decide (c ∈ cov))).map
          (fun c => ((pyIndex fullCon c : Int), p + (pyIndex cov c : Int)))) ∧
    (∀ (fuel : Nat) (pairs : List (Int × Int)) (t : Tensor) (ch : Bool)
      (con cov : List Char),
      (applyTracesRev fuel t ch con cov pairs).1 = specTraceLoop fuel pairs t) ∧
    (∀ (t : Tensor) (s : String) (con cov : List Char) (st : TWIState),
      splitParts (stripBraces s.data) = .ok (con, cov) → construct t s = .ok st →
      st.tensor = specTraceLoop
        (selfPairs (stripGroupPunct con) (stripGroupPunct cov)
          ((tensor_type t).1 : Int)).length
        (selfPairs (stripGroupPunct con) (stripGroupPunct cov)
          ((tensor_type t).1 : Int)).reverse
        (applyGroupsCov cov.length (applyGroupsCon con.length t false con).1
          (applyGroupsCon con.length t false con).2.1 cov).1 ∧
      st.con = (stripGroupPunct con).filter (fun c => decide (c ∉
          sharedLetters (stripGroupPunct con) (stripGroupPunct cov))) ∧
      st.cov = (stripGroupPunct cov).filter (fun c => decide (c ∉
          sharedLetters (stripGroupPunct con) (stripGroupPunct cov)))) ∧
    (∀ (t : Tensor) (s : String) (con cov : List Char) (st : TWIState) (a b : Int),
      splitParts (stripBraces s.data) = .ok (con, cov) → construct t s = .ok st →
      selfPairs (stripGroupPunct con) (stripGroupPunct cov)
        ((tensor_type t).1 : Int) = [(a, b)] →
      st.tensor = .trace (applyGroupsCov cov.length
        (applyGroupsCon con.length t false con).1
        (applyGroupsCon con.length t false con).2.1 cov).1 a b) ∧
    (∀ t : Tensor, tensor_type t = (2, 2) →
      construct t "k._k." = .ok ⟨.trace t 0 2, true, ['.'], ['.']⟩ ∧
      construct t "^.k_.k" = .ok ⟨.trace t 1 3, true, ['.'], ['.']⟩ ∧
      construct t "kl_lk" = .ok ⟨.trace (.trace t 1 2) 0 1, true, [], []⟩) ∧
    (∀ t : Tensor, tensor_type t = (1, 1) →
      construct t "k_k" = .ok ⟨.trace t 0 1, true, [], []⟩) := by
  refine ⟨contractionPairList_eq, applyTracesRev_tensor, ?_, ?_, ?_, ?_⟩
  · intro t s con cov st hsp hok
    exact construct_trace_spec t s con cov st hsp hok
  · intro t s con cov st a b hsp hok hone
    have h1 := (construct_trace_spec t s con cov st hsp hok).1
    rw [h1, hone]
    rfl
  · intro t h
    refine ⟨?_, ?_, ?_⟩
    · rw [construct_eq_ops t _ ['k', '.'] ['k', '.'] (by decide) (by decide) (by decide)
        (by rw [h]; rfl) (by rw [h]; rfl)]
      have e : constructOps t ['k', '.'] ['k', '.'] =
          ⟨.trace t 0 (((tensor_type t).1 : Int) + 0), true, ['.'], ['.']⟩ := rfl
      rw [e, h]
      rfl
    · rw [construct_eq_ops t _ ['.', 'k'] ['.', 'k'] (by decide) (by decide) (by decide)
        (by rw [h]; rfl) (by rw [h]; rfl)]
      have e : constructOps t ['.', 'k'] ['.', 'k'] =
          ⟨.trace t 1 (((tensor_type t).1 : Int) + 1), true, ['.'], ['.']⟩ := rfl
      rw [e, h]
      rfl
    · rw [construct_eq_ops t _ ['k', 'l'] ['l', 'k'] (by decide) (by decide) (by decide)
        (by rw [h]; rfl) (by rw [h]; rfl)]
      have e : constructOps t ['k', 'l'] ['l', 'k'] =
          (let pairs : List (Int × Int) :=
            [(0, ((tensor_type t).1 : Int) + 1), (1, ((tensor_type t).1 : Int) + 0)]
           let r3 := applyTracesRev pairs.length t false ['k', 'l'] ['l', 'k'] pairs.reverse
           ⟨r3.1, r3.2.1, r3.2.2.1, r3.2.2.2⟩) := rfl
      rw [e, h]
      rfl
  · intro t h
    rw [construct_eq_ops t _ ['k'] ['k'] (by decide) (by decide) (by decide)
      (by rw [h]; rfl) (by rw [h]; rfl)]
    have e : constructOps t ['k'] ['k'] =
        ⟨.trace t 0 (((tensor_type t).1 : Int) + 0), true, [], []⟩ := rfl
    rw [e, h]
    rfl

/-- Witness for C2: the construct-level characterization at `"a_a"` on a
(1,1) tensor, and the concrete trace instances. -/
theorem C2_self_contraction_witness :
    ((⟨.trace (.atom 0 1 1) 0 1, true, [], []⟩ : TWIState).tensor = specTraceLoop
        (selfPairs (stripGroupPunct ['a']) (stripGroupPunct ['a'])
          ((tensor_type (.atom 0 1 1)).1 : Int)).length
        (selfPairs (stripGroupPunct ['a']) (stripGroupPunct ['a'])
          ((tensor_type (.atom 0 1 1)).1 : Int)).reverse
        (applyGroupsCov (['a'] : List Char).length
          (applyGroupsCon (['a'] : List Char).length (.atom 0 1 1) false ['a']).1
          (applyGroupsCon (['a'] : List Char).length (.atom 0 1 1) false ['a']).2.1
          ['a']).1 ∧
      (⟨.trace (.atom 0 1 1) 0 1, true, [], []⟩ : TWIState).con =
        (stripGroupPunct ['a']).filter (fun c => decide (c ∉
          sharedLetters (stripGroupPunct ['a']) (stripGroupPunct ['a']))) ∧
      (⟨.trace (.atom 0 1 1) 0 1, true, [], []⟩ : TWIState).cov =
        (stripGroupPunct ['a']).filter (fun c => decide (c ∉
          sharedLetters (stripGroupPunct ['a']) (stripGroupPunct ['a'])))) ∧
    construct (.atom 0 2 2) "k._k." = .ok ⟨.trace (.atom 0 2 2) 0 2, true, ['.'], ['.']⟩ ∧
    construct (.atom 0 2 2) "kl_lk" =
      .ok ⟨.trace (.trace (.atom 0 2 2) 1 2) 0 1, true, [], []⟩ ∧
    construct (.atom 0 1 1) "k_k" = .ok ⟨.trace (.atom 0 1 1) 0 1, true, [], []⟩ :=
  ⟨C2_self_contraction.2.2.1 (.atom 0 1 1) "a_a" ['a'] ['a']
      ⟨.trace (.atom 0 1 1) 0 1, true, [], []⟩ (by decide) (by decide),
   (C2_self_contraction.2.2.2.2.1 (.atom 0 2 2) (by decide)).1,
   (C2_self_contraction.2.2.2.2.1 (.atom 0 2 2) (by decide)).2.2,
   C2_self_contraction.2.2.2.2.2 (.atom 0 1 1) (by decide)⟩

/-! ### C5 and C9: the dollar-anchor counterexamples -/

/-- C5: counterexample — the brace-stripped string `"ab_c\n"` contains a
newline, a character outside the documented grammar, yet construction on a
(2,2) tensor raises no error at all and succeeds: Python's `$` anchor also
matches just before a single trailing newline, so the format `ValueError` is
not raised exactly on grammar violations. -/
theorem C5_counterexample :
    ('\n' ∈ "ab_c\n".data ∧ isIdxChar '\n' = false) ∧
    formatErr (construct (.atom 0 2 2) "ab_c\n") = false ∧
    rankErr (construct (.atom 0 2 2) "ab_c\n") = false ∧
    construct (.atom 0 2 2) "ab_c\n" =
      .ok ⟨.atom 0 2 2, false, ['a', 'b'], ['c', '\n']⟩ := by
  decide

/-- C9: counterexample — construction of `"ab_c\n"` on a (2,2) tensor
succeeds and stores the newline character in the covariant part, violating
the claimed invariant that the stored parts contain only letters and
wildcards. -/
theorem C9_counterexample :
    construct (.atom 0 2 2) "ab_c\n" =
      .ok ⟨.atom 0 2 2, false, ['a', 'b'], ['c', '\n']⟩ ∧
    ¬(∀ c ∈ (⟨.atom 0 2 2, false, ['a', 'b'], ['c', '\n']⟩ : TWIState).cov,
      isIdxChar c = true) := by
  decide
